import Mathlib

/-!
Verification of the core of the `memory_libmap` synthesis pass
(`passes/memory/memory_libmap.cc`): a shallow embedding of the candidate
pipeline (option maps, kind filter, write/read port binding, transparency and
priority handling, emulation scoring, pre-geometry pruning, geometry search,
final selection), together with theorems checking the specification's claims
against it.

Machine integers are modelled as `Nat`/`Int` (the pass never relies on
overflow), `double` costs as `ℚ`, RTL signal bits as an inductive `SigBit`,
and the `dict` option maps as association lists inserted-at-end.  Fatal paths
(`log_error`, `log_assert`, `abort`) are modelled with `Option`/`Except`.
-/

deriving instance DecidableEq for Except

namespace MemLibMap

/-- Kinds of RAM, from `enum class RamKind`. -/
inductive RamKind
  | Auto
  | Logic
  | NotLogic
  | Distributed
  | Block
  | Huge
  deriving DecidableEq, Repr, Inhabited

/-- Port group kinds, from `enum class PortKind`. -/
inductive PortKind
  | Sr
  | Ar
  | Sw
  | Srsw
  | Arsw
  deriving DecidableEq, Repr, Inhabited

/-- Clock polarity kinds, from `enum class ClkPolKind`. -/
inductive ClkPolKind
  | Anyedge
  | Posedge
  | Negedge
  deriving DecidableEq, Repr, Inhabited

/-- Read-enable capability kinds, from `enum class RdEnKind`. -/
inductive RdEnKind
  | None
  | Any
  | WriteImplies
  | WriteExcludes
  deriving DecidableEq, Repr, Inhabited

/-- Transparency target kinds, from `enum class TransTargetKind`. -/
inductive TransTargetKind
  | Self
  | Other
  | Named
  deriving DecidableEq, Repr, Inhabited

/-- Transparency kinds, from `enum class TransKind`. -/
inductive TransKind
  | New
  | Old
  deriving DecidableEq, Repr, Inhabited

/-- A single RTL signal bit: constant zero / one / undefined, or a wire bit
identified by a number.  Models `SigBit` / `State`. -/
inductive SigBit
  | S0
  | S1
  | Sx
  | wire (id : Nat)
  deriving DecidableEq, Repr, Inhabited

/-- A signal as a list of bits, modelling `SigSpec`. -/
abbrev SigSpec := List SigBit

/-- Option values (`Const` in the source) are modelled as naturals. -/
abbrev OptVal := Nat

/-- `Options = dict<std::string, Const>`, modelled as an association list;
lookup takes the first matching key, insertion appends (keys stay unique
because the code only inserts absent keys). -/
abbrev Options := List (String × OptVal)

/-- Key lookup in an option map (`dict::find`). -/
def opts_find : Options → String → Option OptVal
  | [], _ => none
  | (k, v) :: rest, key => if k = key then some v else opts_find rest key

/-- Key insertion for a key that is not yet present (`dst[k] = v`). -/
def opts_insert (dst : Options) (k : String) (v : OptVal) : Options :=
  dst ++ [(k, v)]

/-- From `opts_applied` (memory_libmap.cc): every key of `src` is present in
`dst` with an identical value. -/
def opts_applied (dst : Options) (src : Options) : Bool :=
  src.all fun kv => opts_find dst kv.1 == some kv.2

/-- From `apply_opts` (memory_libmap.cc): commit every key/value pair of
`src` into `dst`; inserting an absent key or re-asserting an identical value
succeeds, a disagreeing value fails (`none` models returning `false`). -/
def apply_opts (dst : Options) : Options → Option Options
  | [] => some dst
  | (k, v) :: rest =>
    match opts_find dst k with
    | none => apply_opts (opts_insert dst k v) rest
    | some v2 => if v2 = v then apply_opts dst rest else none

/-- Lookup distributes over the insertion of an absent key. -/
theorem opts_find_insert (dst : Options) (k : String) (v : OptVal) (key : String) :
    opts_find (opts_insert dst k v) key =
      match opts_find dst key with
      | some w => some w
      | none => if key = k then some v else none := by
  induction dst with
  | nil =>
    simp only [opts_insert, List.nil_append, opts_find]
    by_cases h : k = key
    · subst h; simp [opts_find]
    · have h2 : ¬ key = k := fun hh => h hh.symm
      simp [opts_find, h, h2]
  | cons hd tl ih =>
    obtain ⟨k2, v2⟩ := hd
    simp only [opts_insert, List.cons_append, opts_find] at *
    by_cases h : k2 = key
    · simp [h]
    · simp only [h, if_false]
      exact ih

/-- Order on option maps: `b` binds every key that `a` binds, to the same
value.  `apply_opts` only grows the map in this order. -/
def opts_le (a b : Options) : Prop :=
  ∀ k v, opts_find a k = some v → opts_find b k = some v

theorem opts_le_refl (a : Options) : opts_le a a := fun _ _ h => h

theorem opts_le_trans {a b c : Options} (h1 : opts_le a b) (h2 : opts_le b c) :
    opts_le a c := fun k v h => h2 k v (h1 k v h)

theorem opts_le_insert (dst : Options) (k : String) (v : OptVal) :
    opts_le dst (opts_insert dst k v) := by
  intro key w h
  rw [opts_find_insert]
  simp [h]

/-- A successful `apply_opts` only extends the destination map. -/
theorem apply_opts_le {dst src dst2 : Options} (h : apply_opts dst src = some dst2) :
    opts_le dst dst2 := by
  induction src generalizing dst with
  | nil =>
    simp only [apply_opts, Option.some.injEq] at h
    subst h; exact opts_le_refl _
  | cons hd rest ih =>
    obtain ⟨k, v⟩ := hd
    simp only [apply_opts] at h
    cases hfind : opts_find dst k with
    | none =>
      simp only [hfind] at h
      exact opts_le_trans (opts_le_insert dst k v) (ih h)
    | some v2 =>
      simp only [hfind] at h
      by_cases hv : v2 = v
      · rw [if_pos hv] at h
        exact ih h
      · rw [if_neg hv] at h
        exact absurd h (by simp)

/-- `opts_applied` is monotone in the destination map. -/
theorem opts_applied_mono {a b : Options} (hle : opts_le a b) (src : Options)
    (h : opts_applied a src = true) : opts_applied b src = true := by
  simp only [opts_applied, List.all_eq_true] at h ⊢
  intro kv hkv
  have := h kv hkv
  simp only [beq_iff_eq] at this ⊢
  exact hle kv.1 kv.2 this

/-- After a successful `apply_opts`, every key of the source is present in the
result with an identical value. -/
theorem opts_applied_of_apply {dst src dst2 : Options}
    (h : apply_opts dst src = some dst2) : opts_applied dst2 src = true := by
  induction src generalizing dst with
  | nil => simp [opts_applied]
  | cons hd rest ih =>
    obtain ⟨k, v⟩ := hd
    simp only [apply_opts] at h
    cases hfind : opts_find dst k with
    | none =>
      simp only [hfind] at h
      have hmem : opts_find (opts_insert dst k v) k = some v := by
        rw [opts_find_insert, hfind]; simp
      have hres := apply_opts_le h k v hmem
      have htail := ih h
      simp only [opts_applied, List.all_cons, Bool.and_eq_true, beq_iff_eq]
      exact ⟨hres, by simpa [opts_applied] using htail⟩
    | some v2 =>
      simp only [hfind] at h
      by_cases hv : v2 = v
      · rw [if_pos hv] at h
        subst hv
        have hres := apply_opts_le h k v2 hfind
        have htail := ih h
        simp only [opts_applied, List.all_cons, Bool.and_eq_true, beq_iff_eq]
        exact ⟨hres, by simpa [opts_applied] using htail⟩
      · rw [if_neg hv] at h
        exact absurd h (by simp)

/-- If every binding of `src` is already present, `apply_opts` is the
identity. -/
theorem apply_opts_of_applied {dst src : Options}
    (h : opts_applied dst src = true) : apply_opts dst src = some dst := by
  induction src with
  | nil => simp [apply_opts]
  | cons hd rest ih =>
    obtain ⟨k, v⟩ := hd
    simp only [opts_applied, List.all_cons, Bool.and_eq_true, beq_iff_eq] at h
    obtain ⟨hhd, htl⟩ := h
    simp only [apply_opts, hhd, if_pos rfl]
    exact ih (by simpa [opts_applied] using htl)

/-- C10: if `apply_opts dst src` succeeds with updated map `dst2`, then
`opts_applied dst2 src` holds (every key of `src` is present in `dst2` with an
identical value), and a second `apply_opts` of the same `src` on `dst2`
succeeds and leaves the map unchanged. -/
theorem apply_opts_coherence (dst src dst2 : Options)
    (h : apply_opts dst src = some dst2) :
    opts_applied dst2 src = true ∧ apply_opts dst2 src = some dst2 := by
  have h1 := opts_applied_of_apply h
  exact ⟨h1, apply_opts_of_applied h1⟩

/-- Witness for C10 at a concrete input: inserting key "b" into a map that
already binds "a" succeeds, and the coherence properties hold of the result. -/
theorem apply_opts_coherence_witness :
    apply_opts [("a", 1)] [("b", 2)] = some [("a", 1), ("b", 2)] ∧
    opts_applied [("a", 1), ("b", 2)] [("b", 2)] = true ∧
    apply_opts [("a", 1), ("b", 2)] [("b", 2)] = some [("a", 1), ("b", 2)] := by
  refine ⟨by decide, ?_⟩
  exact apply_opts_coherence [("a", 1)] [("b", 2)] [("a", 1), ("b", 2)] (by decide)

/-- A library capability (`template<typename T> struct Capability`): a value
plus the option/port-option commitments its selection entails. -/
structure Capability (T : Type) where
  val : T
  opts : Options
  portopts : Options
  deriving DecidableEq, Repr, Inhabited

/-- From `struct ClockDef`. -/
structure ClockDef where
  kind : ClkPolKind
  name : String
  deriving DecidableEq, Repr, Inhabited

/-- From `struct WidthDef`. -/
structure WidthDef where
  tied : Bool
  wr_widths : List Nat
  rd_widths : List Nat
  deriving DecidableEq, Repr, Inhabited

/-- From `struct WrTransDef`. -/
structure WrTransDef where
  target_kind : TransTargetKind
  target_name : String
  kind : TransKind
  deriving DecidableEq, Repr, Inhabited

/-- From `struct PortGroupDef`.  The `addrce`, `rdrstval`, `rdsrstmode` and
`wrcs` capability lists are omitted: they are not consumed by any of the
stages modelled here. -/
structure PortGroupDef where
  kind : PortKind
  names : List String
  clock : List (Capability ClockDef)
  width : List (Capability WidthDef)
  rden : List (Capability RdEnKind)
  wrprio : List (Capability String)
  wrtrans : List (Capability WrTransDef)
  deriving DecidableEq, Repr, Inhabited

/-- From `struct MemoryDimsDef`; `cost` is a `double` modelled as `ℚ`. -/
structure MemoryDimsDef where
  abits : Nat
  dbits : List Nat
  tied : Bool
  resource_name : String
  resource_count : Nat
  cost : ℚ
  deriving DecidableEq, Repr, Inhabited

/-- From `struct RamDef`.  The `init` and `style` capability lists are
omitted: they are only consumed by `handle_init` / `handle_ram_style`, which
are not modelled here. -/
structure RamDef where
  id : String
  kind : RamKind
  prune_rom : Bool
  ports : List (Capability PortGroupDef)
  dims : List (Capability MemoryDimsDef)
  byte : List (Capability Nat)
  deriving DecidableEq, Repr, Inhabited

/-- From `struct PassOptions` (the `debug_geom` flag only affects logging). -/
structure PassOptions where
  no_auto_distributed : Bool
  no_auto_block : Bool
  no_auto_huge : Bool
  deriving DecidableEq, Repr, Inhabited

/-- From `struct Library` (the parser-only fields are omitted). -/
structure Library where
  ram_defs : List RamDef
  opts : PassOptions
  deriving DecidableEq, Repr, Inhabited

/-- An abstract-memory write port (the fields of `Mem`'s write ports the
mapping core reads).  `en` is the per-bit write-enable signal of size
`width << wide_log2`. -/
structure MemWrPort where
  clk : SigBit
  clk_polarity : Bool
  clk_enable : Bool
  en : SigSpec
  wide_log2 : Nat
  priority_mask : List Bool
  deriving DecidableEq, Repr, Inhabited

/-- An abstract-memory read port (the fields the mapping core reads). -/
structure MemRdPort where
  clk : SigBit
  clk_polarity : Bool
  clk_enable : Bool
  en : SigBit
  data : SigSpec
  wide_log2 : Nat
  transparency_mask : List Bool
  collision_x_mask : List Bool
  deriving DecidableEq, Repr, Inhabited

/-- The abstract memory under mapping.  `emulate_read_first_ok` is the result
of the external `Mem::emulate_read_first_ok()` query, carried as an input. -/
structure Mem where
  width : Nat
  size : Nat
  start_offset : Nat
  wr_ports : List MemWrPort
  rd_ports : List MemRdPort
  emulate_read_first_ok : Bool
  deriving DecidableEq, Repr, Inhabited

/-- From `struct WrPortConfig`; `rd_port = -1` is modelled as `none`. -/
structure WrPortConfig where
  rd_port : Option Nat := none
  port_def : Nat := 0
  portopts : Options := []
  emu_prio : List Nat := []
  clkpol_kind : ClkPolKind := ClkPolKind.Anyedge
  width_def : Nat := 0
  deriving DecidableEq, Repr, Inhabited

/-- From `struct RdPortConfig`; `wr_port = -1` is modelled as `none`.  The
`resetvals` dictionary is omitted (only the unmodelled reset handlers touch
it). -/
structure RdPortConfig where
  wr_port : Option Nat := none
  port_def : Nat := 0
  portopts : Options := []
  emu_sync : Bool := false
  emu_en : Bool := false
  emu_arst : Bool := false
  emu_srst : Bool := false
  emu_init : Bool := false
  emu_srst_en_prio : Bool := false
  emit_en : Bool := false
  emu_trans : List Nat := []
  clkpol_kind : ClkPolKind := ClkPolKind.Anyedge
  width_def : Nat := 0
  deriving DecidableEq, Repr, Inhabited

/-- From `struct MemConfig`; `swizzle` entries of `-1` (pad bits) are
modelled as `none`, the `double cost` as `ℚ`. -/
structure MemConfig where
  ram_def : Nat := 0
  opts : Options := []
  wr_ports : List WrPortConfig := []
  rd_ports : List RdPortConfig := []
  clocks_anyedge : List (String × (SigBit × Bool)) := []
  clocks_pnedge : List (String × (SigBit × Bool)) := []
  emu_read_first : Bool := false
  dims_def : Nat := 0
  byte : Nat := 0
  base_width_log2 : Nat := 0
  unit_width_log2 : Nat := 0
  swizzle : List (Option Nat) := []
  hard_wide_mask : Nat := 0
  emu_wide_mask : Nat := 0
  repl_d : Nat := 1
  repl_port : Nat := 1
  score_emu : Nat := 0
  score_mux : Nat := 0
  score_demux : Nat := 0
  cost : ℚ := 0
  deriving DecidableEq, Repr, Inhabited

/-- The `RamDef` a candidate refers to (`lib.ram_defs[cfg.ram_def]`; the
index is always in range in the pipeline, the default is a modelling
fallback). -/
def ramDefOf (lib : Library) (cfg : MemConfig) : RamDef :=
  lib.ram_defs.getD cfg.ram_def default

/-- Generic lookup in a `dict<std::string, T>` modelled as an association
list. -/
def alist_find {T : Type} : List (String × T) → String → Option T
  | [], _ => none
  | (k, v) :: rest, key => if k = key then some v else alist_find rest key

/-- From `apply_wrport_opts`: commit a capability's options into the
candidate's option set and the write port's port-option set. -/
def apply_wrport_opts (cfg : MemConfig) (pidx : Nat) (opts portopts : Options) :
    Option MemConfig :=
  match apply_opts cfg.opts opts with
  | none => none
  | some o2 =>
    match cfg.wr_ports[pidx]? with
    | none => none
    | some pcfg =>
      match apply_opts pcfg.portopts portopts with
      | none => none
      | some po2 =>
        some { cfg with
                 opts := o2,
                 wr_ports := cfg.wr_ports.set pidx { pcfg with portopts := po2 } }

/-- From `wrport_opts_applied`: the read-only check that a capability's
options are already satisfied ("free" capability detection). -/
def wrport_opts_applied (cfg : MemConfig) (pidx : Nat) (opts portopts : Options) :
    Bool :=
  match cfg.wr_ports[pidx]? with
  | none => false
  | some pcfg => opts_applied cfg.opts opts && opts_applied pcfg.portopts portopts

/-- From `apply_clock`: bind a named clock, either creating the binding or
requiring an exact match with the existing one. -/
def apply_clock (cfg : MemConfig) (cdef : ClockDef) (clk : SigBit) (pol : Bool) :
    Option MemConfig :=
  if cdef.name = "" then some cfg
  else if cdef.kind = ClkPolKind.Anyedge then
    match alist_find cfg.clocks_anyedge cdef.name with
    | none =>
      some { cfg with clocks_anyedge := cfg.clocks_anyedge ++ [(cdef.name, (clk, pol))] }
    | some p => if p = (clk, pol) then some cfg else none
  else
    let flip : Bool := pol != (cdef.kind == ClkPolKind.Posedge)
    match alist_find cfg.clocks_pnedge cdef.name with
    | none =>
      some { cfg with clocks_pnedge := cfg.clocks_pnedge ++ [(cdef.name, (clk, flip))] }
    | some p => if p = (clk, flip) then some cfg else none

/-- From `MemMapping::determine_logic_ok`: soft logic is feasible iff the
requested kind is Auto or Logic and all write ports share one clock domain
(the early-return loop is equivalent to an `all` over the ports). -/
def determine_logic_ok (kind : RamKind) (mem : Mem) : Bool :=
  if kind ≠ RamKind.Auto ∧ kind ≠ RamKind.Logic then false
  else
    match mem.wr_ports with
    | [] => true
    | p0 :: _ =>
      mem.wr_ports.all fun port =>
        port.clk_enable && (port.clk == p0.clk) && (port.clk_polarity == p0.clk_polarity)

/-- From the loop body of `MemMapping::handle_ram_kind`.  Note that where the
upstream intent is to test the candidate's library kind against the
`no_auto_*` options, this code tests the REQUESTED `kind` (which inside this
branch is Auto or NotLogic), so the three inner conditions can never fire. -/
def ram_kind_pass (opts : PassOptions) (kind : RamKind) (rdef_kind : RamKind) : Bool :=
  let pass := rdef_kind = kind
  if kind = RamKind.Auto ∨ kind = RamKind.NotLogic then
    let pass := true
    let pass := if kind = RamKind.Distributed ∧ opts.no_auto_distributed then false else pass
    let pass := if kind = RamKind.Block ∧ opts.no_auto_block then false else pass
    let pass := if kind = RamKind.Huge ∧ opts.no_auto_huge then false else pass
    pass
  else pass

/-- From `MemMapping::handle_ram_kind`: filter candidates by requested kind;
an empty survivor set is fatal except under Auto/Logic. -/
def handle_ram_kind (lib : Library) (kind : RamKind) (style : String)
    (cfgs : List MemConfig) : Except String (List MemConfig) :=
  if style ≠ "" then .ok cfgs
  else
    let new_cfgs := cfgs.filter fun cfg => ram_kind_pass lib.opts kind (ramDefOf lib cfg).kind
    if new_cfgs.isEmpty then
      match kind with
      | RamKind.Distributed => .error "no available distributed RAMs"
      | RamKind.Block => .error "no available block RAMs"
      | RamKind.Huge => .error "no available huge RAMs"
      | RamKind.NotLogic => .error "no available RAMs"
      | _ => .ok new_cfgs
    else .ok new_cfgs

/-- Conversion of a C++ `double` to `int`: truncation toward zero (for a
rational in lowest terms this is T-division of numerator by denominator). -/
def cppTrunc (q : ℚ) : Int := Int.tdiv q.num (q.den : Int)

/-- From `MemoryLibMapPass::execute`, the per-memory final selection (lines
3066-3084).  `best` is declared `int` in the source, so every assignment of a
`double` cost into it truncates (`cppTrunc`), while comparisons promote the
stored `int` back to `double`.  Result: `.error _` models the fatal
"no valid mapping found" path, `.ok none` leaves the memory to FF mapping
(`idx == -1`), `.ok (some i)` emits candidate `i`. -/
def memory_libmap_select (logic_ok : Bool) (logic_cost : ℚ) (costs : List ℚ) :
    Except String (Option Nat) :=
  let start : Option (Option Nat × Int) :=
    if logic_ok then some (none, cppTrunc logic_cost)
    else
      match costs with
      | [] => none
      | c :: _ => some (some 0, cppTrunc c)
  match start with
  | none => .error "no valid mapping found"
  | some st0 =>
    let res := costs.enum.foldl
      (fun st ic => if ic.2 < (st.2 : ℚ) then (some ic.1, cppTrunc ic.2) else st) st0
    .ok res.1

/-- A candidate referring to library entry 0. -/
def cfg_ram0 : MemConfig := { ram_def := 0 }

/-- A library holding a single Distributed RAM definition, with the
`-no-auto-distributed` option set. -/
def lib_no_auto_dist : Library :=
  { ram_defs := [{ id := "dist", kind := RamKind.Distributed, prune_rom := false,
                   ports := [], dims := [], byte := [] }],
    opts := { no_auto_distributed := true, no_auto_block := false,
              no_auto_huge := false } }

/-- C3 (failing-input evaluation): with requested kind Auto and
`no_auto_distributed` set, the kind filter still retains the Distributed
candidate — the claimed "retained iff the option is not set" is false, because
the filter compares the requested kind instead of the candidate's library
kind when applying the `no_auto_*` options. -/
theorem handle_ram_kind_no_auto_ignored :
    (ramDefOf lib_no_auto_dist cfg_ram0).kind = RamKind.Distributed ∧
    lib_no_auto_dist.opts.no_auto_distributed = true ∧
    handle_ram_kind lib_no_auto_dist RamKind.Auto "" [cfg_ram0] = .ok [cfg_ram0] :=
  ⟨rfl, rfl, rfl⟩

unseal Rat.mul Rat.add Rat.inv in
/-- C1 (failing-input evaluation): with the soft-logic fallback feasible at
cost 20 and hard candidates of cost 10.9 and 10.5, the selection emits the
10.9 candidate: after storing candidate 0 the running best is truncated to
the integer 10, so 10.5 no longer tests lower.  The claimed "emits a
candidate whose cost is ≤ every other surviving candidate" is false here,
since candidate 1 is strictly cheaper. -/
theorem memory_libmap_select_truncates_best :
    memory_libmap_select true 20 [109/10, 105/10] = .ok (some 0) ∧
    (105 : ℚ)/10 < 109/10 := by
  constructor
  · decide
  · norm_num

/-- Write-port binding step for one source write port and one candidate, from
the loop body of `MemMapping::handle_wr_ports`: enumerate write-capable port
groups with a free alias slot, apply their options, then branch per clock
capability. -/
def bind_wr_port (lib : Library) (port : MemWrPort) (cfg : MemConfig) :
    List MemConfig :=
  let ram_def := ramDefOf lib cfg
  (List.range ram_def.ports.length).flatMap fun i =>
    match ram_def.ports[i]? with
    | none => []
    | some pdef =>
      if pdef.val.kind = PortKind.Ar ∨ pdef.val.kind = PortKind.Sr then []
      else
        let used := cfg.wr_ports.countP fun oport => oport.port_def == i
        if pdef.val.names.length ≤ used then []
        else
          match apply_opts cfg.opts pdef.opts with
          | none => []
          | some opts2 =>
            let cfg2 := { cfg with opts := opts2 }
            pdef.val.clock.filterMap fun cdef =>
              match apply_opts cfg2.opts cdef.opts with
              | none => none
              | some opts3 =>
              match apply_opts ([] : Options) cdef.portopts with
              | none => none
              | some po3 =>
              match apply_clock { cfg2 with opts := opts3 } cdef.val port.clk
                      port.clk_polarity with
              | none => none
              | some cfg3 =>
                some { cfg3 with
                         wr_ports := cfg3.wr_ports ++
                           [{ rd_port := none, port_def := i, portopts := po3,
                              clkpol_kind := cdef.val.kind }] }

/-- The per-port loop of `MemMapping::handle_wr_ports`: an asynchronous write
port clears the whole candidate set (`cfgs.clear(); return`). -/
def handle_wr_ports_go (lib : Library) : List MemWrPort → List MemConfig → List MemConfig
  | [], cfgs => cfgs
  | port :: rest, cfgs =>
    if port.clk_enable then
      handle_wr_ports_go lib rest (cfgs.flatMap (bind_wr_port lib port))
    else []

/-- From `MemMapping::handle_wr_ports`: with no write ports, drop `prune_rom`
candidates; otherwise bind every write port in turn. -/
def handle_wr_ports (lib : Library) (mem : Mem) (cfgs : List MemConfig) :
    List MemConfig :=
  let cfgs :=
    if mem.wr_ports.isEmpty then
      cfgs.filter fun cfg => !(ramDefOf lib cfg).prune_rom
    else cfgs
  handle_wr_ports_go lib mem.wr_ports cfgs

theorem handle_wr_ports_go_async (lib : Library) (ports : List MemWrPort)
    (cfgs : List MemConfig) (p : MemWrPort) (hp : p ∈ ports)
    (h : p.clk_enable = false) :
    handle_wr_ports_go lib ports cfgs = [] := by
  induction ports generalizing cfgs with
  | nil => cases hp
  | cons hd tl ih =>
    simp only [handle_wr_ports_go]
    by_cases hh : hd.clk_enable
    · rw [if_pos hh]
      cases hp with
      | head => rw [h] at hh; cases hh
      | tail _ htl => exact ih _ htl
    · rw [if_neg hh]

/-- C9: a write port with `clk_enable = false` empties the candidate set in
`handle_wr_ports`, makes the soft-logic fallback infeasible
(`determine_logic_ok = false` for every requested kind), and the final
selection therefore reports the hard "no valid mapping found" error for the
memory. -/
theorem async_write_port_fatal (lib : Library) (mem : Mem) (kind : RamKind)
    (cfgs : List MemConfig) (p : MemWrPort) (hp : p ∈ mem.wr_ports)
    (hasync : p.clk_enable = false) :
    handle_wr_ports lib mem cfgs = [] ∧
    determine_logic_ok kind mem = false ∧
    memory_libmap_select (determine_logic_ok kind mem)
      ((mem.width : ℚ) * mem.size) [] = .error "no valid mapping found" := by
  have hne : mem.wr_ports ≠ [] := by
    intro hnil; rw [hnil] at hp; cases hp
  have h1 : handle_wr_ports lib mem cfgs = [] := by
    unfold handle_wr_ports
    have : mem.wr_ports.isEmpty = false := by
      cases hmw : mem.wr_ports with
      | nil => exact absurd hmw hne
      | cons a l => rfl
    rw [this]
    exact handle_wr_ports_go_async lib mem.wr_ports cfgs p hp hasync
  have h2 : determine_logic_ok kind mem = false := by
    unfold determine_logic_ok
    by_cases hk : kind ≠ RamKind.Auto ∧ kind ≠ RamKind.Logic
    · rw [if_pos hk]
    · rw [if_neg hk]
      cases hmw : mem.wr_ports with
      | nil => exact absurd hmw hne
      | cons p0 tl =>
        simp only []
        apply Bool.eq_false_iff.mpr
        intro hall
        have hpmem : p ∈ p0 :: tl := hmw ▸ hp
        have := (List.all_eq_true.mp hall) p hpmem
        rw [hasync] at this
        simp at this
  refine ⟨h1, h2, ?_⟩
  rw [h2]
  rfl

/-- A one-write-port memory whose write port is asynchronous. -/
def mem_async_wr : Mem :=
  { width := 4, size := 8, start_offset := 0,
    wr_ports := [{ clk := SigBit.wire 0, clk_polarity := true, clk_enable := false,
                   en := [SigBit.S1, SigBit.S1, SigBit.S1, SigBit.S1],
                   wide_log2 := 0, priority_mask := [] }],
    rd_ports := [], emulate_read_first_ok := false }

/-- An empty library (no RAM definitions, no `no_auto_*` options). -/
def lib_empty : Library :=
  { ram_defs := [],
    opts := { no_auto_distributed := false, no_auto_block := false,
              no_auto_huge := false } }

/-- Witness for C9 at a concrete input: the asynchronous-write memory loses
all candidates, soft logic is rejected, and selection reports the hard
error. -/
theorem async_write_port_fatal_witness :
    handle_wr_ports lib_empty mem_async_wr [cfg_ram0] = [] ∧
    determine_logic_ok RamKind.Auto mem_async_wr = false ∧
    memory_libmap_select (determine_logic_ok RamKind.Auto mem_async_wr)
      ((mem_async_wr.width : ℚ) * mem_async_wr.size) [] =
      .error "no valid mapping found" :=
  async_write_port_fatal lib_empty mem_async_wr RamKind.Auto [cfg_ram0]
    (mem_async_wr.wr_ports.headD default) (by decide) (by decide)


/-- Write-port usage of a port group (`port_usage_wr` in `score_emu_ports`). -/
def port_usage_wr (cfg : MemConfig) (i : Nat) : Nat :=
  cfg.wr_ports.countP fun p => p.port_def == i

/-- Unshared read-port usage of a port group (`port_usage_rd`, incremented
only for read ports with `wr_port == -1`). -/
def port_usage_rd (cfg : MemConfig) (i : Nat) : Nat :=
  cfg.rd_ports.countP fun p => p.wr_port == none && p.port_def == i

/-- The per-read-port score accumulation step of `score_emu_ports`
(3 per `emu_trans` entry, 3 for `emu_en`, 2 each for `emu_init`/`emu_arst`/
`emu_srst`, 1 for `emu_srst_en_prio`, 1 for an unshared read port). -/
def rd_score_step (s : Nat) (p : RdPortConfig) : Nat :=
  let s := s + 3 * p.emu_trans.length
  let s := if p.emu_en then s + 3 else s
  let s := if p.emu_init then s + 2 else s
  let s := if p.emu_arst then s + 2 else s
  let s := if p.emu_srst then s + 2 else s
  let s := if p.emu_srst_en_prio then s + 1 else s
  if p.wr_port == none then s + 1 else s

/-- The replication loop of `score_emu_ports` over port-group indices, with
`log_assert(space >= 0)` and `log_assert(space > 0)` modelled as `none`. -/
def repl_port_go (rdef : RamDef) (uw ur : Nat → Nat) : List Nat → Nat → Option Nat
  | [], rp => some rp
  | i :: rest, rp =>
    let names_len := (rdef.ports.getD i default).val.names.length
    if names_len < uw i then none
    else
      let space := names_len - uw i
      if 0 < ur i then
        if space = 0 then none
        else
          let cur := (ur i + space - 1) / space
          repl_port_go rdef uw ur rest (if rp < cur then cur else rp)
      else repl_port_go rdef uw ur rest rp

/-- From `MemMapping::score_emu_ports`, for one candidate: the emulation score
and the port-replication factor. -/
def score_emu_ports_cfg (lib : Library) (cfg : MemConfig) : Option MemConfig :=
  let rdef := ramDefOf lib cfg
  let score0 := if cfg.emu_read_first then 3 * cfg.wr_ports.length else 0
  let score1 := cfg.wr_ports.foldl (fun s p => s + p.emu_prio.length) score0
  let score2 := cfg.rd_ports.foldl rd_score_step score1
  match repl_port_go rdef (port_usage_wr cfg) (port_usage_rd cfg)
          (List.range rdef.ports.length) 1 with
  | none => none
  | some rp => some { cfg with score_emu := score2, repl_port := rp }

/-- The emulation score as the specification states it: 3 × #write ports if
`emu_read_first`, 1 per `emu_prio` entry, 3 per `emu_trans` entry, 3 per read
port with `emu_en`, 2 each for `emu_init`/`emu_arst`/`emu_srst`, 1 per read
port with `emu_srst_en_prio`, 1 per unshared read port. -/
def score_emu_spec (cfg : MemConfig) : Nat :=
  (if cfg.emu_read_first then 3 * cfg.wr_ports.length else 0)
  + (cfg.wr_ports.map fun p => p.emu_prio.length).sum
  + 3 * (cfg.rd_ports.map fun p => p.emu_trans.length).sum
  + 3 * (cfg.rd_ports.countP fun p => p.emu_en)
  + 2 * (cfg.rd_ports.countP fun p => p.emu_init)
  + 2 * (cfg.rd_ports.countP fun p => p.emu_arst)
  + 2 * (cfg.rd_ports.countP fun p => p.emu_srst)
  + (cfg.rd_ports.countP fun p => p.emu_srst_en_prio)
  + (cfg.rd_ports.countP fun p => p.wr_port == none)

/-- The port-replication factor as the specification states it: the maximum
over port groups with read demand of ⌈rd_usage / (alias_count − wr_usage)⌉,
but at least 1. -/
def repl_port_spec (rdef : RamDef) (uw ur : Nat → Nat) : Nat :=
  ((List.range rdef.ports.length).filter fun i => 0 < ur i).foldl
    (fun m i => max m ((ur i) ⌈/⌉ ((rdef.ports.getD i default).val.names.length - uw i))) 1

/-- The per-read-port score step adds a fixed per-port contribution. -/
def rd_score_f (p : RdPortConfig) : Nat :=
  3 * p.emu_trans.length + (if p.emu_en then 3 else 0) + (if p.emu_init then 2 else 0)
  + (if p.emu_arst then 2 else 0) + (if p.emu_srst then 2 else 0)
  + (if p.emu_srst_en_prio then 1 else 0) + (if p.wr_port == none then 1 else 0)

theorem rd_score_step_eq (s : Nat) (p : RdPortConfig) :
    rd_score_step s p = s + rd_score_f p := by
  simp only [rd_score_step, rd_score_f]
  split_ifs <;> omega

theorem foldl_add_map {α : Type} (f : α → Nat) (l : List α) (a : Nat) :
    l.foldl (fun s p => s + f p) a = a + (l.map f).sum := by
  induction l generalizing a with
  | nil => simp
  | cons hd tl ih => simp [ih, Nat.add_assoc]

theorem foldl_rd_score (l : List RdPortConfig) (a : Nat) :
    l.foldl rd_score_step a = a + (l.map rd_score_f).sum := by
  induction l generalizing a with
  | nil => simp
  | cons hd tl ih => simp [rd_score_step_eq, ih, Nat.add_assoc]

theorem rd_score_sum (l : List RdPortConfig) :
    (l.map rd_score_f).sum =
      3 * (l.map fun p => p.emu_trans.length).sum
      + 3 * (l.countP fun p => p.emu_en)
      + 2 * (l.countP fun p => p.emu_init)
      + 2 * (l.countP fun p => p.emu_arst)
      + 2 * (l.countP fun p => p.emu_srst)
      + (l.countP fun p => p.emu_srst_en_prio)
      + (l.countP fun p => p.wr_port == none) := by
  induction l with
  | nil => simp
  | cons hd tl ih =>
    simp only [List.map_cons, List.sum_cons, List.countP_cons, ih, rd_score_f]
    split_ifs <;> omega

theorem repl_port_go_spec (rdef : RamDef) (uw ur : Nat → Nat) (l : List Nat)
    (rp r : Nat) (h : repl_port_go rdef uw ur l rp = some r) :
    r = (l.filter fun i => 0 < ur i).foldl
          (fun m i => max m ((ur i) ⌈/⌉ ((rdef.ports.getD i default).val.names.length - uw i))) rp := by
  induction l generalizing rp with
  | nil =>
    simp only [repl_port_go, Option.some.injEq] at h
    simp [h]
  | cons i rest ih =>
    simp only [repl_port_go] at h
    by_cases hlt : (rdef.ports.getD i default).val.names.length < uw i
    · rw [if_pos hlt] at h; cases h
    · rw [if_neg hlt] at h
      by_cases hur : 0 < ur i
      · rw [if_pos hur] at h
        by_cases hsp : (rdef.ports.getD i default).val.names.length - uw i = 0
        · rw [if_pos hsp] at h; cases h
        · rw [if_neg hsp] at h
          have hrec := ih _ h
          rw [hrec]
          have hd : List.filter (fun j => decide (0 < ur j)) (i :: rest) =
              i :: List.filter (fun j => decide (0 < ur j)) rest := by
            simp [List.filter_cons, hur]
          rw [hd, List.foldl_cons]
          congr 1
          rw [Nat.ceilDiv_eq_add_pred_div]
          rcases Nat.lt_or_ge rp
              ((ur i + ((rdef.ports.getD i default).val.names.length - uw i) - 1) /
                ((rdef.ports.getD i default).val.names.length - uw i)) with hc | hc
          · rw [if_pos hc, max_eq_right (Nat.le_of_lt hc)]
          · rw [if_neg (Nat.not_lt.mpr hc), max_eq_left hc]
      · rw [if_neg hur] at h
        have hrec := ih _ h
        rw [hrec]
        have hd : List.filter (fun j => decide (0 < ur j)) (i :: rest) =
            List.filter (fun j => decide (0 < ur j)) rest := by
          simp [List.filter_cons, hur]
        rw [hd]

/-- C7: for every candidate accepted by the scorer (the in-source asserts
hold), the computed `score_emu` equals the specification sum and `repl_port`
equals the specification maximum (at least 1) of per-group ceiling
quotients. -/
theorem score_emu_ports_matches_spec (lib : Library) (cfg cfg2 : MemConfig)
    (h : score_emu_ports_cfg lib cfg = some cfg2) :
    cfg2.score_emu = score_emu_spec cfg ∧
    cfg2.repl_port =
      repl_port_spec (ramDefOf lib cfg) (port_usage_wr cfg) (port_usage_rd cfg) := by
  simp only [score_emu_ports_cfg] at h
  cases hrp : repl_port_go (ramDefOf lib cfg) (port_usage_wr cfg) (port_usage_rd cfg)
      (List.range (ramDefOf lib cfg).ports.length) 1 with
  | none => rw [hrp] at h; exact absurd h (by simp)
  | some rp =>
    rw [hrp] at h
    simp only [Option.some.injEq] at h
    subst h
    constructor
    · simp only [foldl_rd_score, foldl_add_map, rd_score_sum, score_emu_spec]
      split_ifs <;> omega
    · exact repl_port_go_spec _ _ _ _ _ _ hrp

/-- A candidate exercising every score component: a write port with one
`emu_prio` entry, an unshared read port with `emu_trans`, `emu_en` and reset
emulation flags, and `emu_read_first` set. -/
def cfg_score : MemConfig :=
  { ram_def := 0,
    wr_ports := [{ port_def := 0, emu_prio := [0] }],
    rd_ports := [{ port_def := 1, emu_trans := [0], emu_en := true,
                   emu_init := true, emu_srst_en_prio := true },
                 { port_def := 1 }],
    emu_read_first := true }

/-- A library whose RAM has a 1-alias write group and a 3-alias read group. -/
def lib_score : Library :=
  { ram_defs := [{ id := "r", kind := RamKind.Block, prune_rom := false,
                   ports := [{ val := { kind := PortKind.Sw, names := ["W"], clock := [],
                                        width := [], rden := [], wrprio := [], wrtrans := [] },
                               opts := [], portopts := [] },
                             { val := { kind := PortKind.Sr, names := ["R1", "R2", "R3"],
                                        clock := [], width := [], rden := [], wrprio := [],
                                        wrtrans := [] },
                               opts := [], portopts := [] }],
                   dims := [], byte := [] }],
    opts := { no_auto_distributed := false, no_auto_block := false,
              no_auto_huge := false } }

/-- Witness for C7 at a concrete input: the scorer accepts `cfg_score` and
computes score 3+1+3+3+2+1+2 = 15 and replication ⌈2/3⌉ = 1. -/
theorem score_emu_ports_matches_spec_witness :
    score_emu_spec cfg_score = 15 ∧
    ((score_emu_ports_cfg lib_score cfg_score).map fun c => c.score_emu) = some 15 ∧
    ((score_emu_ports_cfg lib_score cfg_score).map fun c => c.repl_port) = some 1 ∧
    (((score_emu_ports_cfg lib_score cfg_score).getD default).score_emu = score_emu_spec cfg_score ∧
     ((score_emu_ports_cfg lib_score cfg_score).getD default).repl_port =
       repl_port_spec (ramDefOf lib_score cfg_score) (port_usage_wr cfg_score)
         (port_usage_rd cfg_score)) := by
  refine ⟨by decide, by decide, by decide, ?_⟩
  exact score_emu_ports_matches_spec lib_score cfg_score
    ((score_emu_ports_cfg lib_score cfg_score).getD default) (by decide)

/-- From `same_geom`: two candidates agree on `ram_def`, `dims_def`, `byte`,
and per port on pairing, `port_def` and `width_def`.  (The source indexes both
port vectors with one loop bound; the pipeline keeps the lengths equal, so the
pointwise comparison is modelled with `zip`.) -/
def same_geom (a b : MemConfig) : Bool :=
  a.ram_def == b.ram_def && a.dims_def == b.dims_def && a.byte == b.byte &&
  ((a.wr_ports.zip b.wr_ports).all fun pp =>
    pp.1.rd_port == pp.2.rd_port && pp.1.port_def == pp.2.port_def &&
    pp.1.width_def == pp.2.width_def) &&
  ((a.rd_ports.zip b.rd_ports).all fun pp =>
    pp.1.wr_port == pp.2.wr_port && pp.1.port_def == pp.2.port_def &&
    pp.1.width_def == pp.2.width_def)

/-- The duplicate scan of `prune_pre_geom`: the first earlier still-kept
candidate with the same geometry. -/
def prune_find_dup (cfgs : List MemConfig) (keep : List Bool) (i : Nat) : Option Nat :=
  (List.range i).find? fun j =>
    keep.getD j false && same_geom (cfgs.getD i default) (cfgs.getD j default)

/-- From `MemMapping::prune_pre_geom`.  When candidate `i` improves on a kept
duplicate `j`, the source executes `keep[i] = false` — an out-of-bounds write,
since `keep` holds exactly `i` elements at that point — and then
`keep.push_back(true)`, which (re)occupies index `i` with `true`.  The net
effect, modelled here, is that `keep[j]` is left untouched and `i` is pushed
as kept, so both duplicates survive.  (The upstream intent, `keep[j] = false`,
would drop the higher-score duplicate `j`.) -/
def prune_pre_geom (cfgs : List MemConfig) : List MemConfig :=
  let keep := (List.range cfgs.length).foldl (fun keep i =>
    match prune_find_dup cfgs keep i with
    | some j =>
      if (cfgs.getD i default).score_emu < (cfgs.getD j default).score_emu then
        keep ++ [true]
      else keep ++ [false]
    | none => keep ++ [true]) []
  ((cfgs.zip keep).filter fun p => p.2).map fun p => p.1

/-- A candidate with emulation score 5 (geometry fields all default). -/
def cfg_score5 : MemConfig := { score_emu := 5 }

/-- A candidate with the same geometry but emulation score 3. -/
def cfg_score3 : MemConfig := { score_emu := 3 }

/-- C4 (failing-input evaluation): two candidates with identical geometry
keys where the later one has the strictly lower `score_emu` BOTH survive
`prune_pre_geom` — the out-of-bounds `keep[i] = false` write never clears
`keep[j]` — so the group does not collapse to exactly one member, and the
retained earlier member has the higher score. -/
theorem prune_pre_geom_keeps_duplicates :
    same_geom cfg_score5 cfg_score3 = true ∧
    cfg_score3.score_emu < cfg_score5.score_emu ∧
    prune_pre_geom [cfg_score5, cfg_score3] = [cfg_score5, cfg_score3] := by
  refine ⟨by decide, by decide, by decide⟩

/-- The `wrprio` capability scan of `handle_priority` for one candidate:
capabilities whose value equals `p1_names0` are applied (pushed free when
their options are already satisfied); `found_free` is the second component. -/
def prio_caps_fold (p1_names0 : String) (p2idx : Nat) (cfg : MemConfig) :
    List (Capability String) → List MemConfig × Bool
  | [] => ([], false)
  | prdef :: rest =>
    let fr := prio_caps_fold p1_names0 p2idx cfg rest
    if p1_names0 ≠ prdef.val then fr
    else if wrport_opts_applied cfg p2idx prdef.opts prdef.portopts then
      (cfg :: fr.1, true)
    else
      match apply_wrport_opts cfg p2idx prdef.opts prdef.portopts with
      | some cfg2 => (cfg2 :: fr.1, fr.2)
      | none => fr

/-- One `(p1idx, p2idx)` priority requirement applied to one candidate, from
the loop body of `MemMapping::handle_priority`.  NOTE: the source reads
`p1cfg` from `cfg.rd_ports[p1idx]` although `p1idx` is a WRITE port index
(an out-of-bounds access when there are fewer read ports than write ports,
modelled as dropping the candidate), so the capability name is matched
against the first alias of the port group bound to READ port `p1idx`. -/
def prio_pair_step (lib : Library) (p1idx p2idx : Nat) (cfg : MemConfig) :
    List MemConfig :=
  match cfg.rd_ports[p1idx]?, cfg.wr_ports[p2idx]? with
  | some p1cfg, some p2cfg =>
    let rdef := ramDefOf lib cfg
    let p1def := rdef.ports.getD p1cfg.port_def default
    let p2def := rdef.ports.getD p2cfg.port_def default
    let fr := prio_caps_fold (p1def.val.names.headD "") p2idx cfg p2def.val.wrprio
    if fr.2 then fr.1
    else
      let p2cfg2 := { p2cfg with emu_prio := p2cfg.emu_prio ++ [p1idx] }
      fr.1 ++ [{ cfg with wr_ports := cfg.wr_ports.set p2idx p2cfg2 }]
  | _, _ => []

/-- From `MemMapping::handle_priority`: for every ordered pair of write ports
with the priority bit set, split each candidate across matching `wrprio`
capabilities and the `emu_prio` fork. -/
def handle_priority (lib : Library) (mem : Mem) (cfgs : List MemConfig) :
    List MemConfig :=
  (List.range mem.wr_ports.length).foldl (fun cfgs p1idx =>
    (List.range mem.wr_ports.length).foldl (fun cfgs p2idx =>
      if (mem.wr_ports.getD p2idx default).priority_mask.getD p1idx false then
        cfgs.flatMap (prio_pair_step lib p1idx p2idx)
      else cfgs) cfgs) cfgs

/-- A library whose RAM has write group "WA"/"WB" (whose only `wrprio`
capability names "RB") and read group "RB". -/
def lib_prio : Library :=
  { ram_defs := [{ id := "r", kind := RamKind.Block, prune_rom := false,
                   ports := [{ val := { kind := PortKind.Sw, names := ["WA", "WB"],
                                        clock := [], width := [], rden := [],
                                        wrprio := [{ val := "RB", opts := [], portopts := [] }],
                                        wrtrans := [] },
                               opts := [], portopts := [] },
                             { val := { kind := PortKind.Sr, names := ["RB"],
                                        clock := [], width := [], rden := [], wrprio := [],
                                        wrtrans := [] },
                               opts := [], portopts := [] }],
                   dims := [], byte := [] }],
    opts := { no_auto_distributed := false, no_auto_block := false,
              no_auto_huge := false } }

/-- A memory with two synchronous write ports where write port 1 must
out-prioritise write port 0, and one read port. -/
def mem_prio : Mem :=
  { width := 4, size := 8, start_offset := 0,
    wr_ports := [{ clk := SigBit.wire 0, clk_polarity := true, clk_enable := true,
                   en := [SigBit.S1, SigBit.S1, SigBit.S1, SigBit.S1],
                   wide_log2 := 0, priority_mask := [false, false] },
                 { clk := SigBit.wire 0, clk_polarity := true, clk_enable := true,
                   en := [SigBit.S1, SigBit.S1, SigBit.S1, SigBit.S1],
                   wide_log2 := 0, priority_mask := [true, false] }],
    rd_ports := [{ clk := SigBit.wire 0, clk_polarity := true, clk_enable := false,
                   en := SigBit.S1, data := [SigBit.wire 10, SigBit.wire 11,
                                             SigBit.wire 12, SigBit.wire 13],
                   wide_log2 := 0, transparency_mask := [false, false],
                   collision_x_mask := [false, false] }],
    emulate_read_first_ok := false }

/-- A candidate binding both write ports to group 0 ("WA") and the read port
to group 1 ("RB"). -/
def cfg_prio : MemConfig :=
  { ram_def := 0,
    wr_ports := [{ port_def := 0 }, { port_def := 0 }],
    rd_ports := [{ port_def := 1 }] }

/-- C5 (failing-input evaluation): for the priority requirement
`w2 = 1` over `w1 = 0`, the only `wrprio` capability of write port 1's group
names "RB" — which is NOT the first alias ("WA") of the group bound to write
port 0, so per the claim no capability matches and `0` must be appended to
`w2.emu_prio`.  The code instead compares the capability against the group
bound to READ port 0 ("RB"), treats it as a free match, and emits the
candidate unchanged: no matching capability was applied and `emu_prio` stays
empty. -/
theorem handle_priority_uses_read_port_group :
    handle_priority lib_prio mem_prio [cfg_prio] = [cfg_prio] ∧
    ((cfg_prio.wr_ports.getD 1 default).emu_prio = []) ∧
    (((ramDefOf lib_prio cfg_prio).ports.getD
        ((cfg_prio.wr_ports.getD 1 default).port_def) default).val.wrprio.map
      fun c => c.val) = ["RB"] ∧
    ((ramDefOf lib_prio cfg_prio).ports.getD
        ((cfg_prio.wr_ports.getD 0 default).port_def) default).val.names.headD "" = "WA" ∧
    (mem_prio.wr_ports.getD 1 default).priority_mask.getD 0 false = true := by
  refine ⟨by decide, by decide, by decide, by decide, by decide⟩

/-- The external oracles consulted by the read-port binder: address
compatibility (x-mux canonicalised comparison) and the SAT-backed
write-enable implication/exclusion queries, all out of scope per the
specification and carried as inputs. -/
structure Oracles where
  addr_compatible : Nat → Nat → Bool
  wr_implies_rd : Nat → Nat → Bool
  wr_excludes_rd : Nat → Nat → Bool

/-- One `rden` capability branch of the shared (Srsw) read-port binding, from
the switch in `MemMapping::handle_rd_ports` (shared second pass). -/
def srsw_rden_branch (orc : Oracles) (port : MemRdPort) (wpidx pidx : Nat)
    (cfg2 : MemConfig) (pcfg2 : RdPortConfig) (endef : Capability RdEnKind) :
    Option MemConfig :=
  match apply_wrport_opts cfg2 wpidx endef.opts endef.portopts with
  | none => none
  | some cfg3 =>
    let upd : Option RdPortConfig :=
      match endef.val with
      | RdEnKind.None => some { pcfg2 with emu_en := port.en != SigBit.S1 }
      | RdEnKind.Any => some pcfg2
      | RdEnKind.WriteImplies =>
        some { pcfg2 with emu_en := !(orc.wr_implies_rd wpidx pidx) }
      | RdEnKind.WriteExcludes =>
        if orc.wr_excludes_rd wpidx pidx then some pcfg2 else none
    match upd with
    | none => none
    | some pcfg3 =>
      let pcfg4 := { pcfg3 with emit_en := endef.val != RdEnKind.None }
      some { cfg3 with rd_ports := cfg3.rd_ports ++ [pcfg4] }

/-- The shared ("second pass") read-port binding of
`MemMapping::handle_rd_ports` for one read port and one candidate: bind the
read port onto an already-bound, not-yet-shared write port whose group admits
reads, requiring address compatibility and (for Srsw) clock compatibility,
then branching per `rden` capability for Srsw groups. -/
def rd_shared_pass (lib : Library) (mem : Mem) (orc : Oracles) (pidx : Nat)
    (port : MemRdPort) (cfg : MemConfig) : List MemConfig :=
  (List.range mem.wr_ports.length).flatMap fun wpidx =>
    match mem.wr_ports[wpidx]?, cfg.wr_ports[wpidx]? with
    | some wport, some wpcfg =>
      let didx := wpcfg.port_def
      let pgdef := (ramDefOf lib cfg).ports.getD didx default
      if wpcfg.rd_port ≠ none then []
      else if pgdef.val.kind = PortKind.Sw then []
      else if !(orc.addr_compatible wpidx pidx) then []
      else if pgdef.val.kind = PortKind.Srsw ∧
              (¬port.clk_enable ∨ port.clk ≠ wport.clk ∨
               port.clk_polarity ≠ wport.clk_polarity) then []
      else
        let wpcfg2 := { wpcfg with rd_port := some pidx }
        let cfg2 := { cfg with wr_ports := cfg.wr_ports.set wpidx wpcfg2 }
        let pcfg2 : RdPortConfig :=
          { wr_port := some wpidx, port_def := didx,
            emu_sync := port.clk_enable && (pgdef.val.kind == PortKind.Arsw) }
        if pgdef.val.kind = PortKind.Srsw then
          pgdef.val.rden.filterMap (srsw_rden_branch orc port wpidx pidx cfg2 pcfg2)
        else [{ cfg2 with rd_ports := cfg2.rd_ports ++ [pcfg2] }]
    | _, _ => []

/-- C6: every candidate produced by the shared read-port binding whose new
(last) read port sits on an Srsw port group stems from exactly one `rden`
capability branch, with the flags as specified: `None` sets
`emu_en = (en != 1)` and no hardware enable; `Any` leaves `emu_en` clear;
`WriteImplies` sets `emu_en` iff the `wr_implies_rd` oracle fails;
`WriteExcludes` survives only when the `wr_excludes_rd` oracle holds and
leaves `emu_en` clear; `emit_en` is set iff the kind is not `None`. -/
theorem rd_shared_srsw_rden_flags (lib : Library) (mem : Mem) (orc : Oracles)
    (pidx : Nat) (port : MemRdPort) (cfg cfg' : MemConfig)
    (hmem : cfg' ∈ rd_shared_pass lib mem orc pidx port cfg)
    (p : RdPortConfig) (hlast : cfg'.rd_ports.getLast? = some p)
    (w : Nat) (hw : p.wr_port = some w)
    (hkind : ((ramDefOf lib cfg).ports.getD p.port_def default).val.kind =
      PortKind.Srsw) :
    ∃ endef ∈ ((ramDefOf lib cfg).ports.getD p.port_def default).val.rden,
      p.emit_en = (endef.val != RdEnKind.None) ∧
      (endef.val = RdEnKind.None → p.emu_en = (port.en != SigBit.S1)) ∧
      (endef.val = RdEnKind.Any → p.emu_en = false) ∧
      (endef.val = RdEnKind.WriteImplies →
        p.emu_en = !(orc.wr_implies_rd w pidx)) ∧
      (endef.val = RdEnKind.WriteExcludes →
        orc.wr_excludes_rd w pidx = true ∧ p.emu_en = false) := by
  simp only [rd_shared_pass, List.mem_flatMap, List.mem_range] at hmem
  obtain ⟨wpidx, hwlt, hin⟩ := hmem
  cases hww : mem.wr_ports[wpidx]? with
  | none => rw [hww] at hin; simp at hin
  | some wport =>
  cases hwc : cfg.wr_ports[wpidx]? with
  | none => rw [hww, hwc] at hin; simp at hin
  | some wpcfg =>
  rw [hww, hwc] at hin
  simp only at hin
  by_cases h1 : wpcfg.rd_port ≠ none
  · rw [if_pos h1] at hin; simp at hin
  rw [if_neg h1] at hin
  by_cases h2 : ((ramDefOf lib cfg).ports.getD wpcfg.port_def default).val.kind = PortKind.Sw
  · rw [if_pos h2] at hin; simp at hin
  rw [if_neg h2] at hin
  cases hac : orc.addr_compatible wpidx pidx with
  | false => rw [hac, if_pos (by decide)] at hin; simp at hin
  | true =>
  rw [hac, if_neg (by decide)] at hin
  by_cases h4 : ((ramDefOf lib cfg).ports.getD wpcfg.port_def default).val.kind =
      PortKind.Srsw ∧ (¬port.clk_enable = true ∨ port.clk ≠ wport.clk ∨
        port.clk_polarity ≠ wport.clk_polarity)
  · rw [if_pos h4] at hin; simp at hin
  rw [if_neg h4] at hin
  by_cases h5 : ((ramDefOf lib cfg).ports.getD wpcfg.port_def default).val.kind =
      PortKind.Srsw
  · rw [if_pos h5] at hin
    rw [List.mem_filterMap] at hin
    obtain ⟨endef, hemem, heq⟩ := hin
    simp only [srsw_rden_branch] at heq
    cases happ : apply_wrport_opts
        ({ cfg with wr_ports := cfg.wr_ports.set wpidx { wpcfg with rd_port := some pidx } })
        wpidx endef.opts endef.portopts with
    | none => rw [happ] at heq; simp at heq
    | some cfg3 =>
    rw [happ] at heq
    simp only at heq
    cases hval : endef.val with
    | None =>
      rw [hval] at heq
      simp only [Option.some.injEq] at heq
      subst heq
      simp only [List.getLast?_concat, Option.some.injEq] at hlast
      subst hlast
      refine ⟨endef, hemem, ?_, fun _ => rfl,
        fun hx => absurd (hval ▸ hx) (by decide),
        fun hx => absurd (hval ▸ hx) (by decide),
        fun hx => absurd (hval ▸ hx) (by decide)⟩
      rw [hval]
    | Any =>
      rw [hval] at heq
      simp only [Option.some.injEq] at heq
      subst heq
      simp only [List.getLast?_concat, Option.some.injEq] at hlast
      subst hlast
      refine ⟨endef, hemem, ?_,
        fun hx => absurd (hval ▸ hx) (by decide),
        fun _ => rfl,
        fun hx => absurd (hval ▸ hx) (by decide),
        fun hx => absurd (hval ▸ hx) (by decide)⟩
      rw [hval]
    | WriteImplies =>
      rw [hval] at heq
      simp only [Option.some.injEq] at heq
      subst heq
      simp only [List.getLast?_concat, Option.some.injEq] at hlast
      subst hlast
      simp only [Option.some.injEq] at hw
      subst hw
      refine ⟨endef, hemem, ?_,
        fun hx => absurd (hval ▸ hx) (by decide),
        fun hx => absurd (hval ▸ hx) (by decide),
        fun _ => rfl,
        fun hx => absurd (hval ▸ hx) (by decide)⟩
      rw [hval]
    | WriteExcludes =>
      rw [hval] at heq
      cases hex : orc.wr_excludes_rd wpidx pidx with
      | false => rw [hex] at heq; simp at heq
      | true =>
      rw [hex, if_pos rfl] at heq
      simp only [Option.some.injEq] at heq
      subst heq
      simp only [List.getLast?_concat, Option.some.injEq] at hlast
      subst hlast
      simp only [Option.some.injEq] at hw
      subst hw
      refine ⟨endef, hemem, ?_,
        fun hx => absurd (hval ▸ hx) (by decide),
        fun hx => absurd (hval ▸ hx) (by decide),
        fun hx => absurd (hval ▸ hx) (by decide),
        fun _ => ⟨hex, rfl⟩⟩
      rw [hval]
  · rw [if_neg h5] at hin
    simp only [List.mem_singleton] at hin
    subst hin
    simp only [List.getLast?_concat, Option.some.injEq] at hlast
    subst hlast
    exact absurd hkind h5

/-- Oracles for the C6 witness: addresses compatible, write does not imply
read, write excludes read. -/
def orc_c6 : Oracles :=
  { addr_compatible := fun _ _ => true,
    wr_implies_rd := fun _ _ => false,
    wr_excludes_rd := fun _ _ => true }

/-- A library with a single Srsw port group carrying all four `rden`
capability kinds. -/
def lib_srsw : Library :=
  { ram_defs := [{ id := "r", kind := RamKind.Block, prune_rom := false,
                   ports := [{ val := { kind := PortKind.Srsw, names := ["P"],
                                        clock := [], width := [],
                                        rden := [{ val := RdEnKind.None, opts := [], portopts := [] },
                                                 { val := RdEnKind.Any, opts := [], portopts := [] },
                                                 { val := RdEnKind.WriteImplies, opts := [], portopts := [] },
                                                 { val := RdEnKind.WriteExcludes, opts := [], portopts := [] }],
                                        wrprio := [], wrtrans := [] },
                               opts := [], portopts := [] }],
                   dims := [], byte := [] }],
    opts := { no_auto_distributed := false, no_auto_block := false,
              no_auto_huge := false } }

/-- A memory with one synchronous write port and one synchronous read port on
the same clock, whose read enable is a wire (not constant 1). -/
def mem_srsw : Mem :=
  { width := 4, size := 8, start_offset := 0,
    wr_ports := [{ clk := SigBit.wire 0, clk_polarity := true, clk_enable := true,
                   en := [SigBit.wire 1, SigBit.wire 1, SigBit.wire 1, SigBit.wire 1],
                   wide_log2 := 0, priority_mask := [false] }],
    rd_ports := [{ clk := SigBit.wire 0, clk_polarity := true, clk_enable := true,
                   en := SigBit.wire 5, data := [SigBit.wire 10, SigBit.wire 11,
                                                 SigBit.wire 12, SigBit.wire 13],
                   wide_log2 := 0, transparency_mask := [false],
                   collision_x_mask := [false] }],
    emulate_read_first_ok := false }

/-- A candidate with the write port bound to the Srsw group and no read ports
bound yet. -/
def cfg_srsw : MemConfig :=
  { ram_def := 0, wr_ports := [{ port_def := 0 }], rd_ports := [] }

/-- The first candidate produced by the shared read-port binding (the
`RdEnKind.None` branch). -/
def cfg_srsw_out : MemConfig :=
  (rd_shared_pass lib_srsw mem_srsw orc_c6 0 (mem_srsw.rd_ports.getD 0 default)
    cfg_srsw).headD default

/-- The read-port configuration the C6 witness inspects. -/
def p_c6 : RdPortConfig := cfg_srsw_out.rd_ports.getLast?.getD default

/-- Witness for C6 at a concrete input: the `RdEnKind.None` branch of the
shared binding yields a read port with `emu_en` set (enable is a wire, not
constant 1) and no hardware enable, and the per-branch flag discipline
follows from the theorem. -/
theorem rd_shared_srsw_rden_flags_witness :
    cfg_srsw_out ∈ rd_shared_pass lib_srsw mem_srsw orc_c6 0
      (mem_srsw.rd_ports.getD 0 default) cfg_srsw ∧
    p_c6.emu_en = true ∧ p_c6.emit_en = false ∧
    ∃ endef ∈ ((ramDefOf lib_srsw cfg_srsw).ports.getD p_c6.port_def default).val.rden,
      p_c6.emit_en = (endef.val != RdEnKind.None) ∧
      (endef.val = RdEnKind.None →
        p_c6.emu_en = ((mem_srsw.rd_ports.getD 0 default).en != SigBit.S1)) ∧
      (endef.val = RdEnKind.Any → p_c6.emu_en = false) ∧
      (endef.val = RdEnKind.WriteImplies →
        p_c6.emu_en = !(orc_c6.wr_implies_rd 0 0)) ∧
      (endef.val = RdEnKind.WriteExcludes →
        orc_c6.wr_excludes_rd 0 0 = true ∧ p_c6.emu_en = false) :=
  ⟨by decide, by decide, by decide,
   rd_shared_srsw_rden_flags lib_srsw mem_srsw orc_c6 0
     (mem_srsw.rd_ports.getD 0 default) cfg_srsw cfg_srsw_out (by decide)
     p_c6 (by decide) 0 (by decide) (by decide)⟩

/-- The read-first fork phase of `MemMapping::handle_trans`: when the
abstract memory permits read-first rewriting, fork each candidate with
`emu_read_first` set, but only when no read port is shared with a write
port. -/
def trans_fork_read_first (mem : Mem) (cfgs : List MemConfig) : List MemConfig :=
  if mem.emulate_read_first_ok then
    cfgs.flatMap fun cfg =>
      if cfg.rd_ports.all fun pcfg => pcfg.wr_port == none then
        [cfg, { cfg with emu_read_first := true }]
      else [cfg]
  else cfgs

/-- The `wrtrans` capability scan of `handle_trans` for one (read, write)
pair and one candidate: capabilities whose target selector matches the
pairing status and whose kind matches the required semantics are applied
(pushed free when their options are already satisfied); the second component
is `found_free`. -/
def trans_caps_fold (transparent : Bool) (rpidx wpidx : Nat) (cfg : MemConfig)
    (wp_rd_port : Option Nat) (rp_names0 : String) :
    List (Capability WrTransDef) → List MemConfig × Bool
  | [] => ([], false)
  | tdef :: rest =>
    let fr := trans_caps_fold transparent rpidx wpidx cfg wp_rd_port rp_names0 rest
    let tmatch : Bool :=
      match tdef.val.target_kind with
      | TransTargetKind.Self => wp_rd_port == some rpidx
      | TransTargetKind.Other => !(wp_rd_port == some rpidx)
      | TransTargetKind.Named => rp_names0 == tdef.val.target_name
    if !tmatch then fr
    else if transparent && (tdef.val.kind == TransKind.Old) then fr
    else if !transparent && (tdef.val.kind != TransKind.Old) then fr
    else if wrport_opts_applied cfg wpidx tdef.opts tdef.portopts then
      (cfg :: fr.1, true)
    else
      match apply_wrport_opts cfg wpidx tdef.opts tdef.portopts with
      | some cfg2 => (cfg2 :: fr.1, fr.2)
      | none => fr

/-- One (read, write) transparency restriction applied to one candidate,
from the inner loop body of `MemMapping::handle_trans`: skip on an undefined
collision, emulate on an `emu_sync` read port, otherwise split across
matching `wrtrans` capabilities with an extra `emu_trans` fork when no free
capability matched. -/
def trans_pair_step (lib : Library) (rport : MemRdPort) (rpidx wpidx : Nat)
    (cfg : MemConfig) : List MemConfig :=
  match cfg.rd_ports[rpidx]?, cfg.wr_ports[wpidx]? with
  | some rpcfg, some wpcfg =>
    let rdef := ramDefOf lib cfg
    let wpdef := rdef.ports.getD wpcfg.port_def default
    let rpdef := rdef.ports.getD rpcfg.port_def default
    if rport.collision_x_mask.getD wpidx false && !cfg.emu_read_first then [cfg]
    else
      let transparent := rport.transparency_mask.getD wpidx false || cfg.emu_read_first
      if rpcfg.emu_sync then
        if transparent then
          let rpcfg2 := { rpcfg with emu_trans := rpcfg.emu_trans ++ [wpidx] }
          [{ cfg with rd_ports := cfg.rd_ports.set rpidx rpcfg2 }]
        else [cfg]
      else
        let fr := trans_caps_fold transparent rpidx wpidx cfg wpcfg.rd_port
          (rpdef.val.names.headD "") wpdef.val.wrtrans
        if !fr.2 && transparent then
          let rpcfg2 := { rpcfg with emu_trans := rpcfg.emu_trans ++ [wpidx] }
          fr.1 ++ [{ cfg with rd_ports := cfg.rd_ports.set rpidx rpcfg2 }]
        else fr.1
  | _, _ => []

/-- The (read, write) iteration order of `handle_trans`: read ports outer,
write ports inner. -/
def trans_pairs (mem : Mem) : List (Nat × Nat) :=
  (List.range mem.rd_ports.length).flatMap fun rpidx =>
    (List.range mem.wr_ports.length).map fun wpidx => (rpidx, wpidx)

/-- One pair iteration of `handle_trans`: the clock-domain guards of the two
loops, then the per-candidate split. -/
def trans_pair_apply (lib : Library) (mem : Mem) (pr : Nat × Nat)
    (cfgs : List MemConfig) : List MemConfig :=
  match mem.rd_ports[pr.1]?, mem.wr_ports[pr.2]? with
  | some rport, some wport =>
    if !rport.clk_enable then cfgs
    else if !wport.clk_enable then cfgs
    else if rport.clk != wport.clk then cfgs
    else if rport.clk_polarity != wport.clk_polarity then cfgs
    else cfgs.flatMap (trans_pair_step lib rport pr.1 pr.2)
  | _, _ => cfgs

/-- From `MemMapping::handle_trans`: the read-first fork followed by the
per-pair transparency handling. -/
def handle_trans (lib : Library) (mem : Mem) (cfgs : List MemConfig) :
    List MemConfig :=
  (trans_pairs mem).foldl (fun cfgs pr => trans_pair_apply lib mem pr cfgs)
    (trans_fork_read_first mem cfgs)

/-- Disjunct 1 of the transparency invariant: a `wrtrans` capability of kind
New on write port w's bound port group, matching the pairing status with read
port r, has its options applied in the candidate. -/
def transCapBound (lib : Library) (cfg : MemConfig) (r w : Nat) : Prop :=
  ∃ wp : WrPortConfig, cfg.wr_ports[w]? = some wp ∧
  ∃ rp : RdPortConfig, cfg.rd_ports[r]? = some rp ∧
  ∃ tdef ∈ ((ramDefOf lib cfg).ports.getD wp.port_def default).val.wrtrans,
    (match tdef.val.target_kind with
     | TransTargetKind.Self => wp.rd_port = some r
     | TransTargetKind.Other => wp.rd_port ≠ some r
     | TransTargetKind.Named =>
       ((ramDefOf lib cfg).ports.getD rp.port_def default).val.names.headD "" =
         tdef.val.target_name) ∧
    tdef.val.kind ≠ TransKind.Old ∧
    opts_applied cfg.opts tdef.opts = true ∧
    opts_applied wp.portopts tdef.portopts = true

/-- Disjunct 2 of the transparency invariant: write port w is recorded in
read port r's soft-transparency list. -/
def transEmu (cfg : MemConfig) (r w : Nat) : Prop :=
  ∃ rp : RdPortConfig, cfg.rd_ports[r]? = some rp ∧ w ∈ rp.emu_trans

/-- The full invariant carried through the pair iteration for a fixed pair
(r, w) with collision flag `collision`. -/
def transProp (lib : Library) (collision : Bool) (r w : Nat)
    (cfg : MemConfig) : Prop :=
  (collision = true ∧ cfg.emu_read_first = false) ∨
  transCapBound lib cfg r w ∨ transEmu cfg r w ∨ cfg.emu_read_first = true

/-- What one transparency pair step may change about a candidate: options and
port options only grow, `emu_trans` lists only grow, and everything the
invariant reads (ram_def, pairings, port defs, `emu_read_first`) stays
fixed. -/
def cfgMono (a b : MemConfig) : Prop :=
  a.ram_def = b.ram_def ∧
  b.emu_read_first = a.emu_read_first ∧
  opts_le a.opts b.opts ∧
  (∀ (i : Nat) (wp : WrPortConfig), a.wr_ports[i]? = some wp →
    ∃ wp2 : WrPortConfig, b.wr_ports[i]? = some wp2 ∧
      wp2.port_def = wp.port_def ∧ wp2.rd_port = wp.rd_port ∧
      opts_le wp.portopts wp2.portopts) ∧
  (∀ (i : Nat) (rp : RdPortConfig), a.rd_ports[i]? = some rp →
    ∃ rp2 : RdPortConfig, b.rd_ports[i]? = some rp2 ∧
      rp2.port_def = rp.port_def ∧ rp2.wr_port = rp.wr_port ∧
      rp2.emu_sync = rp.emu_sync ∧ ∀ x, x ∈ rp.emu_trans → x ∈ rp2.emu_trans)

theorem cfgMono_refl (a : MemConfig) : cfgMono a a := by
  refine ⟨rfl, rfl, opts_le_refl _, ?_, ?_⟩
  · intro i wp h
    exact ⟨wp, h, rfl, rfl, opts_le_refl _⟩
  · intro i rp h
    exact ⟨rp, h, rfl, rfl, rfl, fun x hx => hx⟩

theorem lt_of_getElem?_some {α : Type} {l : List α} {i : Nat} {a : α}
    (h : l[i]? = some a) : i < l.length := by
  by_contra hge
  rw [List.getElem?_eq_none (Nat.le_of_not_lt hge)] at h
  cases h

theorem wrport_opts_applied_elim (cfg : MemConfig) (w : Nat) (o po : Options)
    (h : wrport_opts_applied cfg w o po = true) :
    ∃ wp : WrPortConfig, cfg.wr_ports[w]? = some wp ∧
      opts_applied cfg.opts o = true ∧ opts_applied wp.portopts po = true := by
  simp only [wrport_opts_applied] at h
  cases hwp : cfg.wr_ports[w]? with
  | none => rw [hwp] at h; cases h
  | some wp =>
    rw [hwp] at h
    simp only [Bool.and_eq_true] at h
    exact ⟨wp, rfl, h.1, h.2⟩

theorem apply_wrport_opts_elim (cfg : MemConfig) (w : Nat) (o po : Options)
    (cfg2 : MemConfig) (h : apply_wrport_opts cfg w o po = some cfg2) :
    cfgMono cfg cfg2 ∧
    opts_applied cfg2.opts o = true ∧
    ∃ wp2 : WrPortConfig, cfg2.wr_ports[w]? = some wp2 ∧
      opts_applied wp2.portopts po = true := by
  simp only [apply_wrport_opts] at h
  cases ho : apply_opts cfg.opts o with
  | none => rw [ho] at h; cases h
  | some o2 =>
  rw [ho] at h
  simp only at h
  cases hwp : cfg.wr_ports[w]? with
  | none => rw [hwp] at h; cases h
  | some wp =>
  rw [hwp] at h
  simp only at h
  cases hpo : apply_opts wp.portopts po with
  | none => rw [hpo] at h; cases h
  | some po2 =>
  rw [hpo] at h
  simp only [Option.some.injEq] at h
  subst h
  have hwlt : w < cfg.wr_ports.length := lt_of_getElem?_some hwp
  have hget : (cfg.wr_ports.set w { wp with portopts := po2 })[w]? =
      some { wp with portopts := po2 } := by
    rw [List.getElem?_set_self (by simpa using hwlt)]
  refine ⟨⟨rfl, rfl, apply_opts_le ho, ?_, ?_⟩, ?_, ?_⟩
  · intro i wpi hi
    by_cases hiw : i = w
    · subst hiw
      rw [hi] at hwp
      injection hwp with hwe
      subst hwe
      exact ⟨{ wpi with portopts := po2 }, by simpa using hget, rfl, rfl,
        apply_opts_le hpo⟩
    · refine ⟨wpi, ?_, rfl, rfl, opts_le_refl _⟩
      simpa using (List.getElem?_set_ne (fun hh => hiw hh.symm)).trans hi
  · intro i rpi hi
    exact ⟨rpi, hi, rfl, rfl, rfl, fun x hx => hx⟩
  · exact opts_applied_of_apply ho
  · exact ⟨{ wp with portopts := po2 }, by simpa using hget,
      opts_applied_of_apply hpo⟩

theorem trans_caps_fold_mono (t : Bool) (rpidx wpidx : Nat) (cfg : MemConfig)
    (wrd : Option Nat) (n0 : String) (caps : List (Capability WrTransDef))
    (cfg2 : MemConfig)
    (h : cfg2 ∈ (trans_caps_fold t rpidx wpidx cfg wrd n0 caps).1) :
    cfgMono cfg cfg2 := by
  induction caps with
  | nil => simp [trans_caps_fold] at h
  | cons tdef rest ih =>
    simp only [trans_caps_fold] at h
    split at h
    · exact ih h
    · split at h
      · exact ih h
      · split at h
        · exact ih h
        · split at h
          · rcases List.mem_cons.mp h with hh | hh
            · subst hh; exact cfgMono_refl _
            · exact ih hh
          · split at h
            · rename_i cfg3 happ
              rcases List.mem_cons.mp h with hh | hh
              · subst hh
                exact (apply_wrport_opts_elim _ _ _ _ _ happ).1
              · exact ih hh
            · exact ih h

theorem trans_caps_fold_mem_true (rpidx wpidx : Nat) (cfg : MemConfig)
    (wrd : Option Nat) (n0 : String) (caps : List (Capability WrTransDef))
    (cfg2 : MemConfig)
    (h : cfg2 ∈ (trans_caps_fold true rpidx wpidx cfg wrd n0 caps).1) :
    ∃ tdef ∈ caps,
      (match tdef.val.target_kind with
       | TransTargetKind.Self => wrd = some rpidx
       | TransTargetKind.Other => wrd ≠ some rpidx
       | TransTargetKind.Named => n0 = tdef.val.target_name) ∧
      tdef.val.kind ≠ TransKind.Old ∧
      opts_applied cfg2.opts tdef.opts = true ∧
      (∃ wp2 : WrPortConfig, cfg2.wr_ports[wpidx]? = some wp2 ∧
        opts_applied wp2.portopts tdef.portopts = true) := by
  induction caps with
  | nil => simp [trans_caps_fold] at h
  | cons tdef rest ih =>
    simp only [trans_caps_fold] at h
    split at h
    · obtain ⟨td, htd, hprop⟩ := ih h
      exact ⟨td, List.mem_cons_of_mem _ htd, hprop⟩
    · rename_i hmatch
      split at h
      · obtain ⟨td, htd, hprop⟩ := ih h
        exact ⟨td, List.mem_cons_of_mem _ htd, hprop⟩
      · rename_i hold
        split at h
        · obtain ⟨td, htd, hprop⟩ := ih h
          exact ⟨td, List.mem_cons_of_mem _ htd, hprop⟩
        · have htm : (match tdef.val.target_kind with
              | TransTargetKind.Self => wrd == some rpidx
              | TransTargetKind.Other => !(wrd == some rpidx)
              | TransTargetKind.Named => n0 == tdef.val.target_name) = true := by
            cases hbool : (match tdef.val.target_kind with
              | TransTargetKind.Self => wrd == some rpidx
              | TransTargetKind.Other => !(wrd == some rpidx)
              | TransTargetKind.Named => n0 == tdef.val.target_name) with
            | false =>
              rw [hbool] at hmatch
              exact absurd rfl hmatch
            | true => rfl
          have htmp : (match tdef.val.target_kind with
              | TransTargetKind.Self => wrd = some rpidx
              | TransTargetKind.Other => wrd ≠ some rpidx
              | TransTargetKind.Named => n0 = tdef.val.target_name) := by
            cases hk : tdef.val.target_kind with
            | Self => rw [hk] at htm; simpa using htm
            | Other => rw [hk] at htm; simpa using htm
            | Named => rw [hk] at htm; simpa using htm
          have hko : tdef.val.kind ≠ TransKind.Old := by
            intro hkk
            exact hold (by simp [hkk])
          split at h
          · rename_i hfree
            rcases List.mem_cons.mp h with hh | hh
            · subst hh
              obtain ⟨wp, hwp, ho, hpo⟩ := wrport_opts_applied_elim _ _ _ _ hfree
              exact ⟨tdef, List.mem_cons_self _ _, htmp, hko, ho, wp, hwp, hpo⟩
            · obtain ⟨td, htd, hprop⟩ := ih hh
              exact ⟨td, List.mem_cons_of_mem _ htd, hprop⟩
          · split at h
            · rename_i cfg3 happ
              rcases List.mem_cons.mp h with hh | hh
              · subst hh
                obtain ⟨hmono, ho, hwp⟩ := apply_wrport_opts_elim _ _ _ _ _ happ
                exact ⟨tdef, List.mem_cons_self _ _, htmp, hko, ho, hwp⟩
              · obtain ⟨td, htd, hprop⟩ := ih hh
                exact ⟨td, List.mem_cons_of_mem _ htd, hprop⟩
            · obtain ⟨td, htd, hprop⟩ := ih h
              exact ⟨td, List.mem_cons_of_mem _ htd, hprop⟩

theorem set_rd_emu_trans_mono (cfg : MemConfig) (rpcfg : RdPortConfig)
    (r w : Nat) (h : cfg.rd_ports[r]? = some rpcfg) :
    cfgMono cfg
      { cfg with rd_ports :=
          cfg.rd_ports.set r { rpcfg with emu_trans := rpcfg.emu_trans ++ [w] } } := by
  have hrlt : r < cfg.rd_ports.length := lt_of_getElem?_some h
  refine ⟨rfl, rfl, opts_le_refl _, ?_, ?_⟩
  · intro i wp hi
    exact ⟨wp, hi, rfl, rfl, opts_le_refl _⟩
  · intro i rp hi
    by_cases hir : i = r
    · subst hir
      rw [hi] at h
      injection h with hre
      subst hre
      refine ⟨{ rp with emu_trans := rp.emu_trans ++ [w] }, ?_, rfl, rfl, rfl, ?_⟩
      · simpa using List.getElem?_set_self (by simpa using hrlt)
      · intro x hx
        exact List.mem_append_left _ hx
    · refine ⟨rp, ?_, rfl, rfl, rfl, fun x hx => hx⟩
      simpa using (List.getElem?_set_ne (fun hh => hir hh.symm)).trans hi

theorem trans_pair_step_mono (lib : Library) (rport : MemRdPort)
    (rpidx wpidx : Nat) (cfg cfg2 : MemConfig)
    (h : cfg2 ∈ trans_pair_step lib rport rpidx wpidx cfg) :
    cfgMono cfg cfg2 := by
  simp only [trans_pair_step] at h
  cases hr : cfg.rd_ports[rpidx]? with
  | none => rw [hr] at h; simp at h
  | some rpcfg =>
  cases hw : cfg.wr_ports[wpidx]? with
  | none => rw [hr, hw] at h; simp at h
  | some wpcfg =>
  rw [hr, hw] at h
  simp only at h
  split at h
  · rcases List.mem_singleton.mp h with rfl
    exact cfgMono_refl _
  · split at h
    · split at h
      · rcases List.mem_singleton.mp h with rfl
        exact set_rd_emu_trans_mono cfg rpcfg rpidx wpidx hr
      · rcases List.mem_singleton.mp h with rfl
        exact cfgMono_refl _
    · split at h
      · rcases List.mem_append.mp h with hh | hh
        · exact trans_caps_fold_mono _ _ _ _ _ _ _ _ hh
        · rcases List.mem_singleton.mp hh with rfl
          exact set_rd_emu_trans_mono cfg rpcfg rpidx wpidx hr
      · exact trans_caps_fold_mono _ _ _ _ _ _ _ _ h

theorem transProp_mono (lib : Library) (coll : Bool) (r w : Nat)
    {a b : MemConfig} (hm : cfgMono a b) (hp : transProp lib coll r w a) :
    transProp lib coll r w b := by
  obtain ⟨hrd, herf, hopts, hwr, hrd2⟩ := hm
  rcases hp with ⟨hc, he⟩ | hcap | hemu | he
  · exact Or.inl ⟨hc, herf.trans he⟩
  · obtain ⟨wp, hwp, rp, hrp, tdef, htd, htm, hko, ho, hpo⟩ := hcap
    obtain ⟨wp2, hwp2, hpd, hrdp, hple⟩ := hwr w wp hwp
    obtain ⟨rp2, hrp2, hpd2, hwrp, hsync, hsub⟩ := hrd2 r rp hrp
    refine Or.inr (Or.inl ⟨wp2, hwp2, rp2, hrp2, tdef, ?_, ?_, hko,
      opts_applied_mono hopts _ ho, opts_applied_mono hple _ hpo⟩)
    · rw [show ramDefOf lib b = ramDefOf lib a from by
        simp [ramDefOf, hrd], hpd]
      exact htd
    · rw [show ramDefOf lib b = ramDefOf lib a from by
        simp [ramDefOf, hrd], hpd2]
      cases hk : tdef.val.target_kind with
      | Self => simpa [hk, hrdp] using htm
      | Other => simpa [hk, hrdp] using htm
      | Named => simpa [hk] using htm
  · obtain ⟨rp, hrp, hx⟩ := hemu
    obtain ⟨rp2, hrp2, _, _, _, hsub⟩ := hrd2 r rp hrp
    exact Or.inr (Or.inr (Or.inl ⟨rp2, hrp2, hsub w hx⟩))
  · exact Or.inr (Or.inr (Or.inr (herf.trans he)))

theorem transCapBound_of_fold (lib : Library) (r w : Nat) (cfg cfg2 : MemConfig)
    (rpcfg : RdPortConfig) (wpcfg : WrPortConfig)
    (hr : cfg.rd_ports[r]? = some rpcfg) (hw : cfg.wr_ports[w]? = some wpcfg)
    (h : cfg2 ∈ (trans_caps_fold true r w cfg wpcfg.rd_port
      (((ramDefOf lib cfg).ports.getD rpcfg.port_def default).val.names.headD "")
      ((ramDefOf lib cfg).ports.getD wpcfg.port_def default).val.wrtrans).1) :
    transCapBound lib cfg2 r w := by
  have hmono := trans_caps_fold_mono _ _ _ _ _ _ _ _ h
  obtain ⟨td, htd, htm, hko, ho, wp2, hwp2, hpo⟩ :=
    trans_caps_fold_mem_true _ _ _ _ _ _ _ h
  obtain ⟨hrd, herf, hopts, hwr, hrd2⟩ := hmono
  obtain ⟨wp2b, hwp2b, hpdb, hrdb, hpleb⟩ := hwr w wpcfg hw
  obtain ⟨rp2, hrp2, hpd2, hwrp2, hsync2, hsub2⟩ := hrd2 r rpcfg hr
  rw [hwp2b] at hwp2
  injection hwp2 with hwpe
  subst hwpe
  have hramdef : ramDefOf lib cfg2 = ramDefOf lib cfg := by
    simp [ramDefOf, hrd]
  refine ⟨wp2b, hwp2b, rp2, hrp2, td, ?_, ?_, hko, ho, hpo⟩
  · rw [hramdef, hpdb]
    exact htd
  · rw [hramdef, hpd2]
    cases hk : td.val.target_kind with
    | Self => simpa [hk, hrdb] using htm
    | Other => simpa [hk, hrdb] using htm
    | Named => simpa [hk] using htm

theorem trans_pair_step_establish (lib : Library) (rport : MemRdPort)
    (r w : Nat) (cfg cfg2 : MemConfig)
    (htr : rport.transparency_mask.getD w false = true)
    (h : cfg2 ∈ trans_pair_step lib rport r w cfg) :
    transProp lib (rport.collision_x_mask.getD w false) r w cfg2 := by
  simp only [trans_pair_step] at h
  cases hr : cfg.rd_ports[r]? with
  | none => rw [hr] at h; simp at h
  | some rpcfg =>
  cases hw : cfg.wr_ports[w]? with
  | none => rw [hr, hw] at h; simp at h
  | some wpcfg =>
  rw [hr, hw] at h
  simp only at h
  have hrlt : r < cfg.rd_ports.length := lt_of_getElem?_some hr
  split at h
  · rename_i hcol
    rcases List.mem_singleton.mp h with rfl
    refine Or.inl ⟨?_, ?_⟩
    · cases hcb : rport.collision_x_mask.getD w false
      · rw [hcb] at hcol; simp at hcol
      · rfl
    · cases herf : cfg2.emu_read_first
      · rfl
      · rw [herf] at hcol; simp at hcol
  · rename_i hcol
    rw [htr] at h
    simp only [Bool.true_or, if_true] at h
    split at h
    · rcases List.mem_singleton.mp h with rfl
      refine Or.inr (Or.inr (Or.inl ⟨{ rpcfg with emu_trans := rpcfg.emu_trans ++ [w] }, ?_, ?_⟩))
      · simpa using List.getElem?_set_self (by simpa using hrlt)
      · simp
    · simp only [Bool.and_true] at h
      split at h
      · rcases List.mem_append.mp h with hh | hh
        · exact Or.inr (Or.inl (transCapBound_of_fold lib r w cfg cfg2 rpcfg wpcfg hr hw hh))
        · rcases List.mem_singleton.mp hh with rfl
          refine Or.inr (Or.inr (Or.inl ⟨{ rpcfg with emu_trans := rpcfg.emu_trans ++ [w] }, ?_, ?_⟩))
          · simpa using List.getElem?_set_self (by simpa using hrlt)
          · simp
      · exact Or.inr (Or.inl (transCapBound_of_fold lib r w cfg cfg2 rpcfg wpcfg hr hw h))

theorem trans_pair_apply_mono (lib : Library) (mem : Mem) (pr : Nat × Nat)
    (cfgs : List MemConfig) (cfg2 : MemConfig)
    (h : cfg2 ∈ trans_pair_apply lib mem pr cfgs) :
    ∃ cfg ∈ cfgs, cfgMono cfg cfg2 := by
  simp only [trans_pair_apply] at h
  cases hrr : mem.rd_ports[pr.1]? with
  | none =>
    rw [hrr] at h
    exact ⟨cfg2, h, cfgMono_refl _⟩
  | some rport =>
  cases hww : mem.wr_ports[pr.2]? with
  | none =>
    rw [hrr, hww] at h
    exact ⟨cfg2, h, cfgMono_refl _⟩
  | some wport =>
  rw [hrr, hww] at h
  simp only at h
  split at h
  · exact ⟨cfg2, h, cfgMono_refl _⟩
  split at h
  · exact ⟨cfg2, h, cfgMono_refl _⟩
  split at h
  · exact ⟨cfg2, h, cfgMono_refl _⟩
  split at h
  · exact ⟨cfg2, h, cfgMono_refl _⟩
  rw [List.mem_flatMap] at h
  obtain ⟨cfg, hcfg, hstep⟩ := h
  exact ⟨cfg, hcfg, trans_pair_step_mono _ _ _ _ _ _ hstep⟩

theorem trans_foldl_preserves (lib : Library) (mem : Mem) (coll : Bool)
    (r w : Nat) (prs : List (Nat × Nat)) (cfgs : List MemConfig)
    (hall : ∀ cfg ∈ cfgs, transProp lib coll r w cfg) :
    ∀ cfg2 ∈ prs.foldl (fun cfgs pr => trans_pair_apply lib mem pr cfgs) cfgs,
      transProp lib coll r w cfg2 := by
  induction prs generalizing cfgs with
  | nil => simpa using hall
  | cons pr rest ih =>
    intro cfg2 h2
    rw [List.foldl_cons] at h2
    refine ih (trans_pair_apply lib mem pr cfgs) ?_ cfg2 h2
    intro c hc
    obtain ⟨c0, hc0, hmono⟩ := trans_pair_apply_mono lib mem pr cfgs c hc
    exact transProp_mono lib coll r w hmono (hall c0 hc0)

/-- C8: in every candidate surviving the transparency handler, for every
(read port r, write port w) pair clocked on the same edge with
`transparency_mask[w][r]` set and where the undefined-collision mask does not
license skipping, either a `wrtrans` capability of kind New matching the
pairing status is bound on w's port group, or w is recorded in r's
`emu_trans` list, or the candidate carries `emu_read_first`. -/
theorem handle_trans_transparency_invariant (lib : Library) (mem : Mem)
    (cfgs : List MemConfig) (r w : Nat) (rport : MemRdPort) (wport : MemWrPort)
    (hr : mem.rd_ports[r]? = some rport) (hw : mem.wr_ports[w]? = some wport)
    (hrc : rport.clk_enable = true) (hwc : wport.clk_enable = true)
    (hclk : rport.clk = wport.clk)
    (hpol : rport.clk_polarity = wport.clk_polarity)
    (htr : rport.transparency_mask.getD w false = true)
    (cfg2 : MemConfig) (hmem : cfg2 ∈ handle_trans lib mem cfgs)
    (hskip : rport.collision_x_mask.getD w false = false ∨
      cfg2.emu_read_first = true) :
    transCapBound lib cfg2 r w ∨ transEmu cfg2 r w ∨
      cfg2.emu_read_first = true := by
  have hpair : (r, w) ∈ trans_pairs mem := by
    simp only [trans_pairs, List.mem_flatMap, List.mem_range]
    refine ⟨r, lt_of_getElem?_some hr, ?_⟩
    simp only [List.mem_map, List.mem_range]
    exact ⟨w, lt_of_getElem?_some hw, rfl⟩
  obtain ⟨l1, l2, hsplit⟩ := List.append_of_mem hpair
  unfold handle_trans at hmem
  rw [hsplit, List.foldl_append, List.foldl_cons] at hmem
  set base := List.foldl (fun cfgs pr => trans_pair_apply lib mem pr cfgs)
    (trans_fork_read_first mem cfgs) l1 with hbase
  have happly : ∀ c ∈ trans_pair_apply lib mem (r, w) base,
      transProp lib (rport.collision_x_mask.getD w false) r w c := by
    intro c hc
    have hred : trans_pair_apply lib mem (r, w) base =
        base.flatMap (trans_pair_step lib rport r w) := by
      simp only [trans_pair_apply]
      rw [hr, hw]
      simp [hrc, hwc, hclk, hpol]
    rw [hred, List.mem_flatMap] at hc
    obtain ⟨c0, hc0, hstep⟩ := hc
    exact trans_pair_step_establish lib rport r w c0 c htr hstep
  have hfinal := trans_foldl_preserves lib mem
    (rport.collision_x_mask.getD w false) r w l2 _ happly cfg2 hmem
  rcases hfinal with ⟨hc, herf⟩ | hcap | hemu | herf
  · rcases hskip with hs | hs
    · rw [hs] at hc; cases hc
    · rw [hs] at herf; cases herf
  · exact Or.inl hcap
  · exact Or.inr (Or.inl hemu)
  · exact Or.inr (Or.inr herf)

/-- A library with a write-only group and a sync read group, neither carrying
any `wrtrans` capability. -/
def lib_trans : Library :=
  { ram_defs := [{ id := "r", kind := RamKind.Block, prune_rom := false,
                   ports := [{ val := { kind := PortKind.Sw, names := ["W"],
                                        clock := [], width := [], rden := [],
                                        wrprio := [], wrtrans := [] },
                               opts := [], portopts := [] },
                             { val := { kind := PortKind.Sr, names := ["R"],
                                        clock := [], width := [], rden := [],
                                        wrprio := [], wrtrans := [] },
                               opts := [], portopts := [] }],
                   dims := [], byte := [] }],
    opts := { no_auto_distributed := false, no_auto_block := false,
              no_auto_huge := false } }

/-- A memory whose read port is transparent with respect to its single write
port, both on the same clock edge. -/
def mem_trans : Mem :=
  { width := 4, size := 8, start_offset := 0,
    wr_ports := [{ clk := SigBit.wire 0, clk_polarity := true, clk_enable := true,
                   en := [SigBit.wire 1, SigBit.wire 1, SigBit.wire 1, SigBit.wire 1],
                   wide_log2 := 0, priority_mask := [false] }],
    rd_ports := [{ clk := SigBit.wire 0, clk_polarity := true, clk_enable := true,
                   en := SigBit.S1, data := [SigBit.wire 10, SigBit.wire 11,
                                             SigBit.wire 12, SigBit.wire 13],
                   wide_log2 := 0, transparency_mask := [true],
                   collision_x_mask := [false] }],
    emulate_read_first_ok := false }

/-- A candidate with its write port on the Sw group and its read port on the
Sr group (not `emu_sync`). -/
def cfg_trans : MemConfig :=
  { ram_def := 0, wr_ports := [{ port_def := 0 }],
    rd_ports := [{ port_def := 1 }] }

/-- The single candidate surviving the transparency handler on the witness
input (the `emu_trans` emulation fork). -/
def cfg_trans_out : MemConfig :=
  (handle_trans lib_trans mem_trans [cfg_trans]).headD default

/-- Witness for C8 at a concrete input: with no `wrtrans` capability in the
library, the surviving candidate records the write port in `emu_trans`, and
the invariant disjunction follows from the theorem. -/
theorem handle_trans_transparency_invariant_witness :
    cfg_trans_out ∈ handle_trans lib_trans mem_trans [cfg_trans] ∧
    transEmu cfg_trans_out 0 0 ∧
    (transCapBound lib_trans cfg_trans_out 0 0 ∨ transEmu cfg_trans_out 0 0 ∨
      cfg_trans_out.emu_read_first = true) :=
  ⟨by decide,
   ⟨{ port_def := 1, emu_trans := [0] }, by decide, by decide⟩,
   handle_trans_transparency_invariant lib_trans mem_trans [cfg_trans] 0 0
     (mem_trans.rd_ports.getD 0 default) (mem_trans.wr_ports.getD 0 default)
     (by decide) (by decide) (by decide) (by decide) (by decide) (by decide)
     (by decide) cfg_trans_out (by decide) (Or.inl (by decide))⟩

/-- From `xlat_width_range`: translate a per-port width list into an index
range into the dims progression; the `abort()` on an unmatched width is
modelled as `none`. -/
def xlat_width_range (dims : MemoryDimsDef) (widths : List Nat) :
    Option (Nat × Nat) :=
  if widths.isEmpty then some (0, dims.dbits.length - 1)
  else
    match (List.range dims.dbits.length).find? fun i =>
        dims.dbits.getD i 0 == widths.headD 0 with
    | some i => some (i, i + widths.length - 1)
    | none => none

/-- From the start of `handle_geom`: bit positions whose write enable differs
from the previous bit in some examined sub-word (bit 0 always marked).
NOTE: the source iterates `sub < port.wide_log2` — not `sub < (1 <<
port.wide_log2)` — so for a non-wide port no sub-word is examined; the loop
is transcribed as written. -/
def byte_boundary (mem : Mem) : List Bool :=
  let bb0 := (List.range mem.width).map fun i => i == 0
  mem.wr_ports.foldl (fun bb port =>
    (List.range port.wide_log2).foldl (fun bb sub =>
      (List.range mem.width).foldl (fun bb i =>
        if 1 ≤ i then
          let pos := sub * mem.width + i
          if port.en.getD pos SigBit.S0 != port.en.getD (pos - 1) SigBit.S0 then
            bb.set i true
          else bb
        else bb) bb) bb) bb0

/-- Number of distinct write-enable signals per write port
(`en.sort_and_unify()` size). -/
def wren_sizes (mem : Mem) : List Nat :=
  mem.wr_ports.map fun port => port.en.dedup.length

/-- The per-candidate context `handle_geom` works with: the geometry-relevant
fields of the memory, the chosen dims, and the precomputed per-port data. -/
structure GeomCtx where
  width : Nat
  size : Nat
  start_offset : Nat
  abits : Nat
  dbits : List Nat
  tied : Bool
  dims_cost : ℚ
  byte : Nat
  repl_port : Nat
  score_emu : Nat
  wr_wide_log2 : List Nat
  rd_wide_log2 : List Nat
  rd_data_len : List Nat
  wren_size : List Nat
  wr_width_range : List (Nat × Nat)
  rd_width_range : List (Nat × Nat)
  byte_width_log2 : Nat
  max_wide_log2 : Nat
  wide_nu_start : Nat
  wide_nu_end : Nat
  bb : List Bool
  deriving Repr

/-- Whether widening a write port through address bit `j` keeps identical
write enables for both values of the bit (`uniform` in `handle_geom`). -/
def wr_en_uniform (mem_width : Nat) (en : SigSpec) (wide_log2 j : Nat) : Bool :=
  (List.range (2 ^ (wide_log2 - (j + 1)))).all fun m =>
    let k := m * (2 ^ (j + 1))
    ((en.drop (k * mem_width)).take (mem_width <<< j)) ==
      ((en.drop ((k + 2 ^ j) * mem_width)).take (mem_width <<< j))

/-- Count of set mask bits below `w` (the `w++` loops over `hard_wide_mask`). -/
def maskOnesBelow (mask w : Nat) : Nat :=
  ((List.range w).filter fun i => mask.testBit i).length

/-- Count of clear mask bits below `w` (the `w--` loops over
`hard_wide_mask`). -/
def maskZerosBelow (mask w : Nat) : Nat :=
  ((List.range w).filter fun i => !mask.testBit i).length

/-- Build the geometry context for one candidate (the prologue of the
per-candidate loop of `handle_geom`); `none` models the `abort()` inside
`xlat_width_range` and out-of-range defs. -/
def geom_ctx (lib : Library) (mem : Mem) (cfg : MemConfig) : Option GeomCtx := do
  let rdef := ramDefOf lib cfg
  let dims ← (rdef.dims[cfg.dims_def]?).map fun c => c.val
  let wr_wdefs ← cfg.wr_ports.mapM fun pcfg =>
    ((rdef.ports[pcfg.port_def]?).bind fun pg =>
      pg.val.width[pcfg.width_def]?).map fun c => c.val
  let rd_wdefs ← cfg.rd_ports.mapM fun pcfg =>
    ((rdef.ports[pcfg.port_def]?).bind fun pg =>
      pg.val.width[pcfg.width_def]?).map fun c => c.val
  let wr_width_range ← wr_wdefs.mapM fun wdef => xlat_width_range dims wdef.wr_widths
  let rd_width_range ← rd_wdefs.mapM fun wdef =>
    xlat_width_range dims (if wdef.tied then wdef.wr_widths else wdef.rd_widths)
  let bwl0 := (List.range dims.dbits.length).foldl
    (fun b i => if cfg.byte ≥ dims.dbits.getD i 0 then i else b) 0
  let byte_width_log2 := if cfg.byte = 0 then dims.dbits.length - 1 else bwl0
  let max_wr_wide_log2 := mem.wr_ports.foldl (fun m p => max m p.wide_log2) 0
  let max_wide_log2 := mem.rd_ports.foldl (fun m p => max m p.wide_log2)
    max_wr_wide_log2
  let triples := mem.wr_ports.zip (cfg.wr_ports.zip wr_wdefs)
  let nu := triples.foldl (fun (st : Nat × Nat) t =>
    let port := t.1
    let pcfg := t.2.1
    let wdef := t.2.2
    let st :=
      match (List.range port.wide_log2).find? fun j =>
          !(wr_en_uniform mem.width port.en port.wide_log2 j) with
      | some j => (if j < st.1 then j else st.1, st.2)
      | none => st
    if wdef.tied then
      match pcfg.rd_port with
      | some ridx =>
        match mem.rd_ports[ridx]? with
        | some rp =>
          if rp.wide_log2 > port.wide_log2 then
            (min st.1 port.wide_log2, max st.2 rp.wide_log2)
          else st
        | none => st
      | none => st
    else st) (max_wide_log2, max_wr_wide_log2)
  some { width := mem.width, size := mem.size, start_offset := mem.start_offset,
         abits := dims.abits, dbits := dims.dbits, tied := dims.tied,
         dims_cost := dims.cost, byte := cfg.byte, repl_port := cfg.repl_port,
         score_emu := cfg.score_emu,
         wr_wide_log2 := mem.wr_ports.map fun p => p.wide_log2,
         rd_wide_log2 := mem.rd_ports.map fun p => p.wide_log2,
         rd_data_len := mem.rd_ports.map fun p => p.data.length,
         wren_size := wren_sizes mem,
         wr_width_range := wr_width_range, rd_width_range := rd_width_range,
         byte_width_log2 := byte_width_log2, max_wide_log2 := max_wide_log2,
         wide_nu_start := nu.1, wide_nu_end := nu.2, bb := byte_boundary mem }

/-- The swizzle pattern for one base width: source bits in order, padded with
`none` to `effective_byte` alignment at each byte boundary and at the end
(the `while (size % effective_byte)` loops, written with the closed pad
count). -/
def build_swizzle (width : Nat) (bb : List Bool) (eb : Nat) :
    List (Option Nat) :=
  let sw := (List.range width).foldl (fun (sw : List (Option Nat)) i =>
    let sw := if bb.getD i false then
        sw ++ List.replicate ((eb - sw.length % eb) % eb) none
      else sw
    sw ++ [some i]) []
  sw ++ List.replicate ((eb - sw.length % eb) % eb) none

/-- The minimum-width feasibility check of the inner loop (`min_width_ok` and
`min_width_bit`); only write ports below byte width count. -/
def geom_min_width (ctx : GeomCtx) (base mask : Nat) : Bool × Nat :=
  (List.range ctx.wr_wide_log2.length).foldl (fun st pidx =>
    let wl := ctx.wr_wide_log2.getD pidx 0
    let w := base + maskOnesBelow mask wl
    let rng := ctx.wr_width_range.getD pidx (0, 0)
    if w < rng.1 ∧ w < ctx.byte_width_log2 then
      (false, if wl < st.2 then wl else st.2)
    else st) (true, ctx.wide_nu_start)

/-- The evaluation of one feasible (base width, hard-wide mask)
configuration: replication, demux/mux scores and cost, from the
`min_width_ok` body of `handle_geom`.  The subtractions computing `w` match
the source's int arithmetic because the relevant counts never exceed
`emu_wide_bits` for in-range wide ports. -/
structure GeomEval where
  repl : Nat
  score_demux : Nat
  score_mux : Nat
  cost : ℚ
  deriving Repr

def geom_eval (ctx : GeomCtx) (base mask num unit_width swizzle_len : Nat) :
    GeomEval :=
  let emu_wide_bits := ctx.max_wide_log2 - num
  let mult_wide := 2 ^ emu_wide_bits
  let addrs := 2 ^ (ctx.abits + emu_wide_bits - base)
  let min_addr := ctx.start_offset / addrs
  let max_addr := (ctx.start_offset + ctx.size - 1) / addrs
  let mult_a := max_addr - min_addr + 1
  let bits := mult_a * mult_wide * swizzle_len
  let repl := (bits + unit_width - 1) / unit_width
  let score_demux := (List.range ctx.wr_wide_log2.length).foldl (fun s i =>
    let w := emu_wide_bits - maskZerosBelow mask (ctx.wr_wide_log2.getD i 0)
    if w ≠ 0 ∨ mult_a ≠ 1 then s + (mult_a <<< w) * ctx.wren_size.getD i 0
    else s) 0
  let score_mux := (List.range ctx.rd_wide_log2.length).foldl (fun s i =>
    let w := emu_wide_bits - maskZerosBelow mask (ctx.rd_wide_log2.getD i 0)
    s + ((mult_a <<< w) - 1) * ctx.rd_data_len.getD i 0) 0
  let cost : ℚ := ctx.dims_cost * (repl : ℚ) * (ctx.repl_port : ℚ)
    + (score_mux : ℚ) * (1/2) + (score_demux : ℚ) * (1/2)
    + (ctx.score_emu : ℚ) * 2
  { repl := repl, score_demux := score_demux, score_mux := score_mux,
    cost := cost }

/-- The maximum-width constraint check for a candidate new mask. -/
def geom_max_width_ok (ctx : GeomCtx) (base newmask : Nat) : Bool :=
  ((List.range ctx.wr_wide_log2.length).all fun pidx =>
    base + maskOnesBelow newmask (ctx.wr_wide_log2.getD pidx 0) ≤
      (ctx.wr_width_range.getD pidx (0, 0)).2) &&
  ((List.range ctx.rd_wide_log2.length).all fun pidx =>
    base + maskOnesBelow newmask (ctx.rd_wide_log2.getD pidx 0) ≤
      (ctx.rd_width_range.getD pidx (0, 0)).2)

/-- Downward scan for the highest clear mask bit in `[scan_to, scan_from)`
(the `while (1)` bit scan). -/
def scan_bit (mask scan_to : Nat) : Nat → Option Nat
  | 0 => none
  | b + 1 =>
    if b < scan_to then none
    else if mask.testBit b then scan_bit mask scan_to b
    else some b

/-- Result of one pass of the `next_hw` logic. -/
inductive PickOut
  | committed (mask num : Nat)
  | failedRetry
  | doneBase
  deriving Repr, DecidableEq

/-- One pass of the `next_hw` bit selection: choose the scan window by the
four-way branch, scan for a clear bit, and check the max-width constraints;
a constraint violation is handled exactly like scan exhaustion
(`goto hw_bit_failed`). -/
def geom_pick_once (ctx : GeomCtx) (base : Nat) (min_width_ok : Bool)
    (min_width_bit : Nat) (byte_failed : Bool) (mask num : Nat) : PickOut :=
  let sft : Nat × Nat × Bool :=
    if !min_width_ok then (min_width_bit, 0, false)
    else if byte_failed then (ctx.max_wide_log2, ctx.wide_nu_end, false)
    else if base + num < ctx.byte_width_log2 then (ctx.wide_nu_start, 0, true)
    else (ctx.max_wide_log2, 0, false)
  match scan_bit mask sft.2.1 sft.1 with
  | none => if sft.2.2 then PickOut.failedRetry else PickOut.doneBase
  | some bit =>
    let new_mask := mask ||| (1 <<< bit)
    if geom_max_width_ok ctx base new_mask then
      PickOut.committed new_mask (num + 1)
    else if sft.2.2 then PickOut.failedRetry else PickOut.doneBase

/-- The full `next_hw` step: on a retry failure set `byte_failed` and run the
branch selection once more (the retry flag can only arise with `byte_failed`
still clear, so a second retry is impossible). -/
def geom_pick (ctx : GeomCtx) (base : Nat) (min_width_ok : Bool)
    (min_width_bit : Nat) (byte_failed : Bool) (mask num : Nat) :
    Option (Nat × Nat × Bool) :=
  match geom_pick_once ctx base min_width_ok min_width_bit byte_failed mask num with
  | PickOut.committed m n => some (m, n, byte_failed)
  | PickOut.doneBase => none
  | PickOut.failedRetry =>
    match geom_pick_once ctx base min_width_ok min_width_bit true mask num with
    | PickOut.committed m n => some (m, n, true)
    | _ => none

/-- The running best configuration: the stored candidate plus the `int
best_cost` of the source — truncated on every assignment (this `int`
declaration is where the geometry search loses cost precision). -/
abbrev GeomAcc := Option (MemConfig × Int)

/-- Store an evaluated configuration when `!got_config || cost < best_cost`
(the comparison promotes the stored `int` back to `double`). -/
def geom_store (cfg : MemConfig) (base unit_width_log2 : Nat)
    (swizzle : List (Option Nat)) (mask : Nat) (ctx : GeomCtx)
    (ev : GeomEval) (acc : GeomAcc) : GeomAcc :=
  let better :=
    match acc with
    | none => true
    | some st => decide (ev.cost < (st.2 : ℚ))
  if better then
    let m := (1 <<< ctx.max_wide_log2) - 1
    some ({ cfg with
        base_width_log2 := base,
        unit_width_log2 := unit_width_log2,
        swizzle := swizzle,
        hard_wide_mask := mask,
        emu_wide_mask := m ^^^ (m &&& mask),
        repl_d := ev.repl,
        score_demux := ev.score_demux,
        score_mux := ev.score_mux,
        cost := ev.cost }, cppTrunc ev.cost)
  else acc

/-- The inner `while (1)` of `handle_geom` for one base width: evaluate when
the min-width constraints hold, stop for tied dims, otherwise extend the
hard-wide mask one bit at a time.  Fuel-based recursion (each iteration adds
one mask bit or exits, so `max_wide_log2 + 2` fuel always suffices). -/
def geom_inner (ctx : GeomCtx) (cfg : MemConfig)
    (base unit_width_log2 unit_width : Nat) (swizzle : List (Option Nat)) :
    Nat → Nat × Nat × Bool → GeomAcc → GeomAcc
  | 0, _, acc => acc
  | fuel + 1, st, acc =>
    let mask := st.1
    let num := st.2.1
    let bf := st.2.2
    let mw := geom_min_width ctx base mask
    let acc :=
      if mw.1 then
        geom_store cfg base unit_width_log2 swizzle mask ctx
          (geom_eval ctx base mask num unit_width swizzle.length) acc
      else acc
    if ctx.tied then acc
    else
      match geom_pick ctx base mw.1 mw.2 bf mask num with
      | none => acc
      | some st2 =>
        geom_inner ctx cfg base unit_width_log2 unit_width swizzle fuel st2 acc

/-- The base-width loop of `handle_geom`: iterate base widths upward through
the dims progression, stopping early when a max-width clamp bites after a
configuration was already found; `none` models the
`log_assert(unit_width % effective_byte == 0)`. -/
def geom_base_loop (ctx : GeomCtx) (cfg : MemConfig) :
    Nat → Nat → GeomAcc → Option GeomAcc
  | 0, _, acc => some acc
  | fuel + 1, base, acc =>
    if ctx.dbits.length ≤ base then some acc
    else
      let unit0 := ctx.wr_width_range.foldl (fun u x => min u x.2) base
      let unit_width_log2 := ctx.rd_width_range.foldl (fun u x => min u x.2) unit0
      if unit_width_log2 ≠ base ∧ acc.isSome then some acc
      else
        let unit_width := ctx.dbits.getD unit_width_log2 0
        let effective_byte0 :=
          if ctx.byte = 0 ∨ unit_width < ctx.byte then unit_width else ctx.byte
        let effective_byte := if ctx.wr_wide_log2.isEmpty then 1
          else effective_byte0
        if unit_width % effective_byte ≠ 0 then none
        else
          let swizzle := build_swizzle ctx.width ctx.bb effective_byte
          let acc2 := geom_inner ctx cfg base unit_width_log2 unit_width swizzle
            (ctx.max_wide_log2 + 2) (0, 0, false) acc
          geom_base_loop ctx cfg fuel (base + 1) acc2

/-- From `MemMapping::handle_geom`, for one candidate: run the geometry
search and return the stored best configuration; `none` models the asserts
and the final `log_assert(got_config)`. -/
def handle_geom_cfg (lib : Library) (mem : Mem) (cfg : MemConfig) :
    Option MemConfig := do
  let ctx ← geom_ctx lib mem cfg
  let start_base := ctx.rd_width_range.foldl (fun s x => min s x.1)
    (ctx.wr_width_range.foldl (fun s x => min s x.1) (ctx.dbits.length - 1))
  let acc ← geom_base_loop ctx cfg (ctx.dbits.length + 1) start_base none
  let st ← acc
  some st.1

/-- From `MemMapping::handle_geom`: the per-candidate geometry search over
the whole working set. -/
def handle_geom (lib : Library) (mem : Mem) (cfgs : List MemConfig) :
    Option (List MemConfig) :=
  cfgs.mapM (handle_geom_cfg lib mem)

/-- A library with one RAM: an async read group with a full-range width
capability, dims abits=4, dbits=[4,8], tied, unit cost 2/5. -/
def lib_geom : Library :=
  { ram_defs := [{ id := "r", kind := RamKind.Distributed, prune_rom := false,
                   ports := [{ val := { kind := PortKind.Ar, names := ["A"],
                                        clock := [],
                                        width := [{ val := { tied := false,
                                                             wr_widths := [],
                                                             rd_widths := [] },
                                                    opts := [], portopts := [] }],
                                        rden := [], wrprio := [], wrtrans := [] },
                               opts := [], portopts := [] }],
                   dims := [{ val := { abits := 4, dbits := [4, 8], tied := true,
                                       resource_name := "", resource_count := 0,
                                       cost := 2/5 },
                              opts := [], portopts := [] }],
                   byte := [] }],
    opts := { no_auto_distributed := false, no_auto_block := false,
              no_auto_huge := false } }

/-- An 8-wide, 8-deep ROM with a single async read port. -/
def mem_geom : Mem :=
  { width := 8, size := 8, start_offset := 0,
    wr_ports := [],
    rd_ports := [{ clk := SigBit.wire 0, clk_polarity := true,
                   clk_enable := false, en := SigBit.S1,
                   data := [SigBit.wire 10, SigBit.wire 11, SigBit.wire 12,
                            SigBit.wire 13, SigBit.wire 14, SigBit.wire 15,
                            SigBit.wire 16, SigBit.wire 17],
                   wide_log2 := 0, transparency_mask := [],
                   collision_x_mask := [] }],
    emulate_read_first_ok := false }

/-- The candidate entering the geometry search: read port on the Ar group,
emulation score 1 (unshared read port), replication 1. -/
def cfg_geom : MemConfig :=
  { ram_def := 0, dims_def := 0, byte := 0, repl_port := 1, score_emu := 1,
    wr_ports := [], rd_ports := [{ port_def := 0, width_def := 0 }] }

unseal Rat.mul Rat.add Rat.inv in
/-- C2 (failing-input evaluation): on the 8×8 ROM the greedy search first
evaluates base width 4 (cost 2/5·2·1 + 1·2 = 14/5) and stores it, truncating
the running best to the integer 2; it then evaluates base width 8 as feasible
with cost 2/5·1·1 + 2 = 12/5, but 12/5 < 2 fails, so the stored configuration
keeps cost 14/5 although a strictly cheaper evaluated configuration exists —
the claim that the stored configuration has minimal cost among the evaluated
feasible ones is false (the source declares `int best_cost` for a `double`
cost). -/
theorem handle_geom_truncates_best_cost :
    ((handle_geom_cfg lib_geom mem_geom cfg_geom).map fun c =>
      (c.base_width_log2, c.cost)) = some (0, 14/5) ∧
    ((geom_ctx lib_geom mem_geom cfg_geom).map fun ctx =>
      ((geom_min_width ctx 1 0).1, (geom_eval ctx 1 0 0 8 8).cost)) =
      some (true, 12/5) ∧
    (12 : ℚ)/5 < 14/5 := by
  refine ⟨by decide, by decide, by norm_num⟩

end MemLibMap
